import Mathlib

/-!
Verification of the fs-hunter filesystem inventory tool.

This file gives a shallow embedding, in Lean 4, of the core data model and
algorithms of the fs-hunter repository (metadata records, filter cascade,
deduplication, duration/time parsing, path-set diff, join diff, delta-manifest
enrichment, and the time-bucketed metrics aggregator), together with theorems
settling the specification claims about them.

Conventions of the embedding:
* Python `datetime` values are modelled as natural numbers (seconds since an
  epoch); a time-of-day is `t % 86400` seconds, and the minute-of-day used by
  the metrics aggregator is `(t % 86400) / 60`, matching `hour * 60 + minute`.
* Python strings are Lean `String`s; where character-level manipulation is
  needed we work on `List Char` (the underlying data of a `String`).
* Fallible Python code (exceptions) is modelled with `Option`/`Except`.
* `pandas` DataFrames are modelled as Lean lists of records; the multiset of
  produced rows is what the claims are about, so list order follows the
  source's construction order.
-/

/-- The `FileMetadata` dataclass from `metadata.py`: the canonical per-file
record.  `ctime` and `mtime` are epoch seconds, `size_bytes` a natural
number, every other field a string.  The content digest field is named `md5`,
exactly as in the source. -/
structure FileMetadata where
  name : String
  extension : String
  full_path : String
  relative_path : String
  size_bytes : Nat
  ctime : Nat
  mtime : Nat
  permissions : String
  owner : String
  mime_type : String
  md5 : String
  deriving DecidableEq, Repr

/-- Parse one `strptime` numeric time component: one or two ASCII digits,
bounded by `bound` (23 for hours, 59 for minutes and seconds — the datetime
constructor rejects leap seconds, so `%S` effectively admits 0–59). -/
def parseTimeComp (bound : Nat) (cs : List Char) : Option Nat :=
  match cs with
  | [c] => if c.isDigit ∧ c.toNat - 48 ≤ bound then some (c.toNat - 48) else none
  | [c1, c2] =>
      let v := (c1.toNat - 48) * 10 + (c2.toNat - 48)
      if c1.isDigit ∧ c2.isDigit ∧ v ≤ bound then some v else none
  | _ => none

/-- Strip leading and trailing ASCII whitespace, as Python `str.strip()`. -/
def pyStrip (cs : List Char) : List Char :=
  ((cs.dropWhile Char.isWhitespace).reverse.dropWhile Char.isWhitespace).reverse

/-- The `parse_time` function from `formatters.py`: try `%H:%M:%S`, `%H:%M`,
`%H` in turn on the stripped input; result is seconds after midnight. -/
def parse_time (s : String) : Option Nat :=
  match (pyStrip s.data).splitOn ':' with
  | [h] => (parseTimeComp 23 h).map (· * 3600)
  | [h, m] => do
      let h' ← parseTimeComp 23 h
      let m' ← parseTimeComp 59 m
      pure (h' * 3600 + m' * 60)
  | [h, m, sec] => do
      let h' ← parseTimeComp 23 h
      let m' ← parseTimeComp 59 m
      let s' ← parseTimeComp 59 sec
      pure (h' * 3600 + m' * 60 + s')
  | _ => none

/-- The window test inside `filter_by_time_range` (`filters.py`): `start_t`,
`end_t` and the record's time-of-day are compared as seconds after midnight. -/
def time_range_check (start_t end_t t : Nat) : Bool :=
  if start_t ≤ end_t then decide (start_t ≤ t) && decide (t ≤ end_t)
  else decide (t ≥ start_t) || decide (t ≤ end_t)

/-- The `filter_by_time_range` factory from `filters.py`: parse both bounds
(a parse failure raises in Python, hence `Option`), then test the record's
`mtime` time-of-day against the window. -/
def filter_by_time_range (start endStr : String) : Option (FileMetadata → Bool) :=
  match parse_time start, parse_time endStr with
  | some s, some e => some (fun m => time_range_check s e (m.mtime % 86400))
  | _, _ => none

/-- A sample record used for concrete evaluations; only the fields a given
claim inspects matter at each use site. -/
def sampleRecord (mt : Nat) : FileMetadata :=
  { name := "report_20250601.csv", extension := ".csv"
    full_path := "/data/report_20250601.csv", relative_path := "report_20250601.csv"
    size_bytes := 10, ctime := mt, mtime := mt
    permissions := "-rw-r--r--", owner := "u", mime_type := "text/csv"
    md5 := "d41d8cd98f00b204e9800998ecf8427e" }

/-- C8: the time-of-day window filter accepts a record exactly when its
time-of-day `t` lies in `[start, end]` when `start ≤ end`, and in
`[start, 24:00) ∪ [0:00, end]` when the window wraps midnight; a `22:00`–`02:00`
window accepts 23:30 and 01:15 and rejects 12:00. -/
theorem filter_by_time_range_window :
    (∀ s e t : Nat, time_range_check s e t = true ↔
      (if s ≤ e then t ∈ Set.Icc s e else t ∈ Set.Ici s ∪ Set.Iic e))
    ∧ (∃ f, filter_by_time_range "22:00" "02:00" = some f
        ∧ f (sampleRecord (23 * 3600 + 30 * 60)) = true
        ∧ f (sampleRecord (1 * 3600 + 15 * 60)) = true
        ∧ f (sampleRecord (12 * 3600)) = false) := by
  constructor
  · intro s e t
    unfold time_range_check
    split
    · simp [Set.mem_Icc]
    · simp [Set.mem_Ici, Set.mem_Iic, Set.mem_union]
  · exact ⟨fun m => time_range_check (22 * 3600) (2 * 3600) (m.mtime % 86400),
      by rfl, by rfl, by rfl, by rfl⟩

/-! ### Path-set diff (`delta_result_main.py`) -/

/-- The row construction of the `delta` command in `delta_result_main.py`:
`added_paths = target_paths − source_paths`, `removed_paths = source_paths −
target_paths` (as sets of `full_path` values); the output concatenates the
target rows whose path was added, each tagged `"+"`, with the source rows
whose path was removed, each tagged `"-"`. -/
def delta_rows (src tgt : List FileMetadata) : List (String × FileMetadata) :=
  let source_paths := src.map FileMetadata.full_path
  let target_paths := tgt.map FileMetadata.full_path
  let added_paths := target_paths.filter (fun p => decide (p ∉ source_paths))
  let removed_paths := source_paths.filter (fun p => decide (p ∉ target_paths))
  (tgt.filter (fun t => decide (t.full_path ∈ added_paths))).map (fun t => ("+", t))
    ++ (src.filter (fun s => decide (s.full_path ∈ removed_paths))).map (fun s => ("-", s))

/-- Since a target row's path is always in the target path set (and likewise
for source rows), the `isin` filters of the delta command reduce to plain
absence tests against the other side. -/
theorem delta_rows_eq (src tgt : List FileMetadata) :
    delta_rows src tgt
      = (tgt.filter (fun t =>
            decide (t.full_path ∉ src.map FileMetadata.full_path))).map (fun t => ("+", t))
        ++ (src.filter (fun s =>
            decide (s.full_path ∉ tgt.map FileMetadata.full_path))).map (fun s => ("-", s)) := by
  simp only [delta_rows]
  congr 1
  · congr 1
    apply List.filter_congr
    intro t ht
    have hmem : t.full_path ∈ tgt.map FileMetadata.full_path := List.mem_map_of_mem _ ht
    simp [List.mem_filter, hmem]
  · congr 1
    apply List.filter_congr
    intro s hsm
    have hmem : s.full_path ∈ src.map FileMetadata.full_path := List.mem_map_of_mem _ hsm
    simp [List.mem_filter, hmem]

/-- C4: the path-set diff tags with `"+"` exactly the target records whose
`full_path` is absent from the source, with `"-"` exactly the source records
whose `full_path` is absent from the target, emits nothing for paths in the
intersection, is empty on `(S, S)`, yields `|T|` additions and no removals on
`(∅, T)`, and — when each inventory has pairwise distinct `full_path`s —
emits exactly one row per path of the symmetric difference. -/
theorem delta_rows_symm_diff :
    (∀ src tgt r, ("+", r) ∈ delta_rows src tgt ↔
        r ∈ tgt ∧ r.full_path ∉ src.map FileMetadata.full_path)
    ∧ (∀ src tgt r, ("-", r) ∈ delta_rows src tgt ↔
        r ∈ src ∧ r.full_path ∉ tgt.map FileMetadata.full_path)
    ∧ (∀ src tgt c r, (c, r) ∈ delta_rows src tgt →
        ¬(r.full_path ∈ src.map FileMetadata.full_path
          ∧ r.full_path ∈ tgt.map FileMetadata.full_path))
    ∧ (∀ s, delta_rows s s = [])
    ∧ (∀ tgt, delta_rows [] tgt = tgt.map (fun t => ("+", t)))
    ∧ (∀ src tgt, (src.map FileMetadata.full_path).Nodup →
        (tgt.map FileMetadata.full_path).Nodup →
        ((delta_rows src tgt).map (fun x => x.2.full_path)).Nodup
        ∧ ∀ p, p ∈ (delta_rows src tgt).map (fun x => x.2.full_path) ↔
            ((p ∈ tgt.map FileMetadata.full_path ∧ p ∉ src.map FileMetadata.full_path)
              ∨ (p ∈ src.map FileMetadata.full_path ∧ p ∉ tgt.map FileMetadata.full_path))) := by
  have hmem_plus : ∀ (A B : List FileMetadata) (r : FileMetadata),
      ("+", r) ∈ A.map (fun t => (("+" : String), t))
          ++ B.map (fun s => (("-" : String), s)) ↔ r ∈ A := by
    intro A B r
    constructor
    · intro h
      rcases List.mem_append.mp h with h1 | h2
      · obtain ⟨t, htA, heq⟩ := List.mem_map.mp h1
        injection heq with _ h2
        exact h2 ▸ htA
      · obtain ⟨s, _, heq⟩ := List.mem_map.mp h2
        injection heq with h1 _
        exact absurd h1 (by decide)
    · intro h
      exact List.mem_append.mpr (Or.inl (List.mem_map.mpr ⟨r, h, rfl⟩))
  have hmem_minus : ∀ (A B : List FileMetadata) (r : FileMetadata),
      ("-", r) ∈ A.map (fun t => (("+" : String), t))
          ++ B.map (fun s => (("-" : String), s)) ↔ r ∈ B := by
    intro A B r
    constructor
    · intro h
      rcases List.mem_append.mp h with h1 | h2
      · obtain ⟨t, _, heq⟩ := List.mem_map.mp h1
        injection heq with h1 _
        exact absurd h1 (by decide)
      · obtain ⟨s, hsB, heq⟩ := List.mem_map.mp h2
        injection heq with _ h2
        exact h2 ▸ hsB
    · intro h
      exact List.mem_append.mpr (Or.inr (List.mem_map.mpr ⟨r, h, rfl⟩))
  have hplus : ∀ src tgt r, ("+", r) ∈ delta_rows src tgt ↔
      r ∈ tgt ∧ r.full_path ∉ src.map FileMetadata.full_path := by
    intro src tgt r
    rw [delta_rows_eq, hmem_plus, List.mem_filter]
    simp only [decide_eq_true_eq]
  have hminus : ∀ src tgt r, ("-", r) ∈ delta_rows src tgt ↔
      r ∈ src ∧ r.full_path ∉ tgt.map FileMetadata.full_path := by
    intro src tgt r
    rw [delta_rows_eq, hmem_minus, List.mem_filter]
    simp only [decide_eq_true_eq]
  have hinter : ∀ src tgt c r, (c, r) ∈ delta_rows src tgt →
      ¬(r.full_path ∈ src.map FileMetadata.full_path
        ∧ r.full_path ∈ tgt.map FileMetadata.full_path) := by
    intro src tgt c r hmem hboth
    rw [delta_rows_eq] at hmem
    rcases List.mem_append.mp hmem with h1 | h2
    · obtain ⟨t, htf, heq⟩ := List.mem_map.mp h1
      injection heq with _ h2
      subst h2
      have hx := (List.mem_filter.mp htf).2
      rw [decide_eq_true_eq] at hx
      exact hx hboth.1
    · obtain ⟨s, hsf, heq⟩ := List.mem_map.mp h2
      injection heq with _ h2
      subst h2
      have hx := (List.mem_filter.mp hsf).2
      rw [decide_eq_true_eq] at hx
      exact hx hboth.2
  refine ⟨hplus, hminus, hinter, ?_, ?_, ?_⟩
  · intro s
    rw [delta_rows_eq]
    have h1 : ∀ t ∈ s, ¬ (decide (t.full_path ∉ s.map FileMetadata.full_path) = true) := by
      intro t hts
      simp only [decide_eq_true_eq, Decidable.not_not]
      exact List.mem_map_of_mem _ hts
    rw [List.filter_eq_nil_iff.mpr h1]
    simp
  · intro tgt
    rw [delta_rows_eq]
    have h2 : tgt.filter (fun t =>
        decide (t.full_path ∉ ([] : List FileMetadata).map FileMetadata.full_path)) = tgt := by
      apply List.filter_eq_self.mpr
      intro t _
      simp
    rw [h2]
    simp
  · intro src tgt hs ht
    have hrw : (delta_rows src tgt).map (fun x => x.2.full_path)
        = (tgt.filter (fun t =>
              decide (t.full_path ∉ src.map FileMetadata.full_path))).map FileMetadata.full_path
          ++ (src.filter (fun s =>
              decide (s.full_path ∉ tgt.map FileMetadata.full_path))).map FileMetadata.full_path := by
      rw [delta_rows_eq, List.map_append, List.map_map, List.map_map]
      rfl
    constructor
    · rw [hrw]
      apply List.Nodup.append
      · exact ht.sublist ((List.filter_sublist tgt).map FileMetadata.full_path)
      · exact hs.sublist ((List.filter_sublist src).map FileMetadata.full_path)
      · intro p hp1 hp2
        simp only [List.mem_map, List.mem_filter, decide_eq_true_eq] at hp1 hp2
        obtain ⟨t, ⟨_, habs⟩, rfl⟩ := hp1
        obtain ⟨s, ⟨hsm, _⟩, hpe⟩ := hp2
        exact habs ⟨s, hsm, hpe⟩
    · intro p
      rw [hrw]
      simp only [List.mem_append, List.mem_map, List.mem_filter, decide_eq_true_eq]
      constructor
      · rintro (⟨t, ⟨htm, habs⟩, rfl⟩ | ⟨s, ⟨hsm, habs⟩, rfl⟩)
        · exact Or.inl ⟨⟨t, htm, rfl⟩, habs⟩
        · exact Or.inr ⟨⟨s, hsm, rfl⟩, habs⟩
      · rintro (⟨⟨t, htm, rfl⟩, hps⟩ | ⟨⟨s, hsm, rfl⟩, hpt⟩)
        · exact Or.inl ⟨t, ⟨htm, hps⟩, rfl⟩
        · exact Or.inr ⟨s, ⟨hsm, hpt⟩, rfl⟩

/-! ### Delta-manifest enrichment (`utils.py`, `enrich_with_delta`) -/

/-- Test that list `s` starts with the list `p` (Python `str.startswith`). -/
def strStarts : List Char → List Char → Bool
  | _, [] => true
  | [], _ :: _ => false
  | c :: s, d :: p => c == d && strStarts s p

/-- Python `str.rstrip("/")`: remove every trailing `/`. -/
def rstripSlash (d : List Char) : List Char :=
  (d.reverse.dropWhile (· == '/')).reverse

/-- The directory normalization of `enrich_with_delta`:
`directory.rstrip("/") + "/"`. -/
def normDir (d : List Char) : List Char :=
  rstripSlash d ++ ['/']

/-- The path-separator normalization of `enrich_with_delta`:
`full_path.replace("\\", "/")`. -/
def normSlashes (p : List Char) : List Char :=
  p.map (fun c => if c == '\\' then '/' else c)

/-- The `DeltaInfo` dataclass from `metadata.py`: one row of the delta-manifest
CSV. -/
structure DeltaInfo where
  directory : String
  dataset_repo : String
  sf_table : String
  filename : String
  deriving DecidableEq, Repr

/-- The per-row test of `enrich_with_delta`: the record's slash-normalized
`full_path` starts with the row's normalized directory. -/
def delta_match (r : DeltaInfo) (fp : String) : Bool :=
  strStarts (normSlashes fp.data) (normDir r.directory.data)

/-- The row loop of `_match_delta` inside `enrich_with_delta`: return the
three manifest values of the first matching row, or empty strings when no row
matches. -/
def enrich_with_delta_row : List DeltaInfo → String → String × String × String
  | [], _ => ("", "", "")
  | r :: rest, fp =>
      if delta_match r fp then (r.dataset_repo, r.sf_table, r.filename)
      else enrich_with_delta_row rest fp

theorem strStarts_iff (p : List Char) : ∀ s, strStarts s p = true ↔ ∃ t, s = p ++ t := by
  induction p with
  | nil => intro s; simp [strStarts]
  | cons d p ih =>
    intro s
    cases s with
    | nil => simp [strStarts]
    | cons c s =>
      simp only [strStarts, Bool.and_eq_true, beq_iff_eq, ih, List.cons_append,
        List.cons.injEq]
      constructor
      · rintro ⟨rfl, t, rfl⟩
        exact ⟨t, rfl, rfl⟩
      · rintro ⟨t, rfl, rfl⟩
        exact ⟨rfl, t, rfl⟩

theorem head_dropWhile_false {α : Type} {p : α → Bool} :
    ∀ (l : List α) (a : α), (l.dropWhile p).head? = some a → p a = false := by
  intro l
  induction l with
  | nil => intro a h; simp [List.dropWhile] at h
  | cons x xs ih =>
    intro a h
    rw [List.dropWhile] at h
    cases hx : p x with
    | true => rw [hx] at h; exact ih a h
    | false =>
      rw [hx] at h
      simp only [List.head?] at h
      cases h
      exact hx

theorem rstripSlash_no_trailing (d : List Char) :
    (rstripSlash d).getLast? ≠ some '/' := by
  intro h
  rw [rstripSlash, List.getLast?_reverse] at h
  have := head_dropWhile_false (p := (· == '/')) d.reverse '/' h
  simp at this

/-- C10: the manifest directory is normalized to end in exactly one trailing
slash; a record is annotated exactly when its slash-normalized `full_path`
starts with the normalized directory followed by `/`; a merely-string-sharing
sibling such as `/data/ab/x` against directory `/data/a` is never annotated;
the first matching manifest row wins; and a record matching no row gets empty
strings for all three columns. -/
theorem enrich_with_delta_matching :
    (∀ d : List Char, ∃ e, normDir d = e ++ ['/'] ∧ e.getLast? ≠ some '/')
    ∧ (∀ (r : DeltaInfo) (fp : String), delta_match r fp = true ↔
        ∃ t, normSlashes fp.data = rstripSlash r.directory.data ++ '/' :: t)
    ∧ (∀ rows fp, (∀ r ∈ rows, delta_match r fp = false) →
        enrich_with_delta_row rows fp = ("", "", ""))
    ∧ (∀ pre (r : DeltaInfo) post fp, delta_match r fp = true →
        (∀ r' ∈ pre, delta_match r' fp = false) →
        enrich_with_delta_row (pre ++ r :: post) fp
          = (r.dataset_repo, r.sf_table, r.filename))
    ∧ enrich_with_delta_row [⟨"/data/a", "repo", "tbl", "pat"⟩] "/data/ab/x"
        = ("", "", "") := by
  refine ⟨?_, ?_, ?_, ?_, by decide⟩
  · intro d
    exact ⟨rstripSlash d, rfl, rstripSlash_no_trailing d⟩
  · intro r fp
    rw [delta_match, strStarts_iff]
    constructor
    · rintro ⟨t, ht⟩
      exact ⟨t, by simpa [normDir, List.append_assoc] using ht⟩
    · rintro ⟨t, ht⟩
      exact ⟨t, by simpa [normDir, List.append_assoc] using ht⟩
  · intro rows fp h
    induction rows with
    | nil => rfl
    | cons r rest ih =>
      rw [enrich_with_delta_row, h r (List.mem_cons_self r rest)]
      exact ih (fun r' hr' => h r' (List.mem_cons_of_mem r hr'))
  · intro pre r post fp hmatch hpre
    induction pre with
    | nil => simp [enrich_with_delta_row, hmatch]
    | cons q qre ih =>
      rw [List.cons_append, enrich_with_delta_row, hpre q (List.mem_cons_self q qre)]
      exact ih (fun r' hr' => hpre r' (List.mem_cons_of_mem q hr'))

/-! ### Filename structural patterns (`utils.py`, `name_to_pattern`) -/

/-- Python `int()` on a run of ASCII digit characters. -/
def digitsToNat (cs : List Char) : Nat :=
  cs.foldl (fun n c => n * 10 + (c.toNat - 48)) 0

/-- The `_is_valid_date` helper from `utils.py`: an 8-digit run whose
`YYYYMMDD` decomposition has year 1900–2099, month 1–12 and day 1–31. -/
def _is_valid_date (digits : List Char) : Bool :=
  if digits.length ≠ 8 then false
  else
    let y := digitsToNat (digits.take 4)
    let m := digitsToNat ((digits.drop 4).take 2)
    let d := digitsToNat (digits.drop 6)
    decide (1900 ≤ y) && decide (y ≤ 2099) && decide (1 ≤ m) && decide (m ≤ 12)
      && decide (1 ≤ d) && decide (d ≤ 31)

/-- The characters escaped by Python 3.7+ `re.escape`. -/
def reSpecial : List Char :=
  ['(', ')', '[', ']', Char.ofNat 123, Char.ofNat 125, '?', '*', '+', '-', '|',
   '^', '$', '\\', '.', '&', '~', '#', ' ', '\t', '\n', '\r',
   Char.ofNat 11, Char.ofNat 12]

/-- Escape one character as `re.escape` does. -/
def reEscapeChar (c : Char) : List Char :=
  if c ∈ reSpecial then ['\\', c] else [c]

/-- Python `re.escape` over a run of characters. -/
def reEscape (cs : List Char) : List Char :=
  (cs.map reEscapeChar).flatten

/-- The replacement for one digit run in `name_to_pattern`: a date-shaped
8-digit run becomes the `YYYYMMDD` pattern, any other run of length N becomes
a count-N digit pattern. -/
def digitRun (d : List Char) : List Char :=
  if _is_valid_date d then "\\d\x7b4\x7d\\d\x7b2\x7d\\d\x7b2\x7d".data
  else "\\d\x7b".data ++ (toString d.length).data ++ "\x7d".data

/-- Negation of `Char.isDigit`, the class of the even-indexed runs that
`re.split` with a digit-run capture produces. -/
def notDigit (c : Char) : Bool := !c.isDigit

/-- The loop of `name_to_pattern` from `utils.py`: `re.split(r"(\d+)", s)`
yields alternating (possibly empty) non-digit parts and (nonempty) digit
parts; even parts are regex-escaped, odd parts replaced by `digitRun`.  The
recursion consumes at least one character of the digit run per step, so a
fuel of `cs.length` is always sufficient (`name_to_pattern_go_fuel`). -/
def name_to_pattern_go : Nat → List Char → List Char
  | 0, _ => []
  | fuel + 1, cs =>
      let nd := cs.takeWhile notDigit
      match cs.dropWhile notDigit with
      | [] => reEscape nd
      | c :: rest =>
          reEscape nd ++ digitRun ((c :: rest).takeWhile Char.isDigit)
            ++ name_to_pattern_go fuel ((c :: rest).dropWhile Char.isDigit)

/-- The `name_to_pattern` function from `utils.py` (over the character list
of a filename). -/
def name_to_pattern (cs : List Char) : List Char :=
  name_to_pattern_go (cs.length + 1) cs

/-- String-level `name_to_pattern`. -/
def name_to_patternS (s : String) : String :=
  ⟨name_to_pattern s.data⟩

/-- Spec-side run splitter: decompose a string into its maximal runs of
same-digitness characters, in order. -/
def runSplit_go : Nat → List Char → List (List Char)
  | 0, _ => []
  | _ + 1, [] => []
  | fuel + 1, c :: tl =>
      (c :: tl).takeWhile (fun x => x.isDigit == c.isDigit)
        :: runSplit_go fuel ((c :: tl).dropWhile (fun x => x.isDigit == c.isDigit))

/-- Spec-side run splitter with sufficient fuel. -/
def runSplit (cs : List Char) : List (List Char) :=
  runSplit_go (cs.length + 1) cs

/-- The specification's wording of the pattern algorithm: split the basename
into alternating non-digit and digit runs, regex-escape each non-digit run
and replace each digit run by its `digitRun` pattern. -/
def spec_name_to_pattern (cs : List Char) : List Char :=
  ((runSplit cs).map (fun run =>
    if (run.headD 'a').isDigit then digitRun run else reEscape run)).flatten

theorem name_to_pattern_go_fuel : ∀ (f1 f2 : Nat) (cs : List Char),
    cs.length < f1 → cs.length < f2 →
    name_to_pattern_go f1 cs = name_to_pattern_go f2 cs := by
  intro f1
  induction f1 with
  | zero => intro f2 cs h1 _; omega
  | succ f ihf =>
    intro f2 cs h1 h2
    cases f2 with
    | zero => omega
    | succ g =>
      simp only [name_to_pattern_go]
      cases h : cs.dropWhile notDigit with
      | nil => rfl
      | cons c rest =>
        have hc : notDigit c = false := head_dropWhile_false cs c (by rw [h]; rfl)
        have hcd : c.isDigit = true := by simpa [notDigit] using hc
        have hlen1 : (c :: rest).length ≤ cs.length := by
          rw [← h]; exact (List.dropWhile_sublist notDigit).length_le
        have htl : ((c :: rest).dropWhile Char.isDigit).length ≤ rest.length := by
          rw [List.dropWhile_cons_of_pos hcd]
          exact (List.dropWhile_sublist Char.isDigit).length_le
        simp only [List.length_cons] at hlen1
        show reEscape (cs.takeWhile notDigit)
            ++ digitRun ((c :: rest).takeWhile Char.isDigit)
            ++ name_to_pattern_go f ((c :: rest).dropWhile Char.isDigit)
          = reEscape (cs.takeWhile notDigit)
            ++ digitRun ((c :: rest).takeWhile Char.isDigit)
            ++ name_to_pattern_go g ((c :: rest).dropWhile Char.isDigit)
        rw [ihf g ((c :: rest).dropWhile Char.isDigit) (by omega) (by omega)]

theorem runSplit_go_fuel : ∀ (f1 f2 : Nat) (cs : List Char),
    cs.length < f1 → cs.length < f2 →
    runSplit_go f1 cs = runSplit_go f2 cs := by
  intro f1
  induction f1 with
  | zero => intro f2 cs h1 _; omega
  | succ f ihf =>
    intro f2 cs h1 h2
    cases f2 with
    | zero => omega
    | succ g =>
      cases cs with
      | nil => rfl
      | cons c tl =>
        simp only [runSplit_go]
        have htl : ((c :: tl).dropWhile (fun x => x.isDigit == c.isDigit)).length
            ≤ tl.length := by
          rw [List.dropWhile_cons_of_pos (by simp)]
          exact (List.dropWhile_sublist _).length_le
        simp only [List.length_cons] at h1 h2
        rw [ihf g ((c :: tl).dropWhile (fun x => x.isDigit == c.isDigit))
          (by omega) (by omega)]

theorem runSplit_cons (c : Char) (tl : List Char) :
    runSplit (c :: tl)
      = (c :: tl).takeWhile (fun x => x.isDigit == c.isDigit)
        :: runSplit ((c :: tl).dropWhile (fun x => x.isDigit == c.isDigit)) := by
  have htl : ((c :: tl).dropWhile (fun x => x.isDigit == c.isDigit)).length
      ≤ tl.length := by
    rw [List.dropWhile_cons_of_pos (by simp)]
    exact (List.dropWhile_sublist _).length_le
  show runSplit_go ((c :: tl).length + 1) (c :: tl) = _
  simp only [List.length_cons, runSplit_go]
  congr 1
  apply runSplit_go_fuel
  · omega
  · omega

theorem name_to_pattern_unfold (cs : List Char) :
    name_to_pattern cs =
      match cs.dropWhile notDigit with
      | [] => reEscape (cs.takeWhile notDigit)
      | c :: rest => reEscape (cs.takeWhile notDigit)
          ++ digitRun ((c :: rest).takeWhile Char.isDigit)
          ++ name_to_pattern ((c :: rest).dropWhile Char.isDigit) := by
  show name_to_pattern_go (cs.length + 1) cs = _
  simp only [name_to_pattern_go]
  cases h : cs.dropWhile notDigit with
  | nil => rfl
  | cons c rest =>
    have hc : notDigit c = false := head_dropWhile_false cs c (by rw [h]; rfl)
    have hcd : c.isDigit = true := by simpa [notDigit] using hc
    have hlen1 : (c :: rest).length ≤ cs.length := by
      rw [← h]; exact (List.dropWhile_sublist notDigit).length_le
    have htl : ((c :: rest).dropWhile Char.isDigit).length ≤ rest.length := by
      rw [List.dropWhile_cons_of_pos hcd]
      exact (List.dropWhile_sublist Char.isDigit).length_le
    simp only [List.length_cons] at hlen1
    show reEscape (cs.takeWhile notDigit)
        ++ digitRun ((c :: rest).takeWhile Char.isDigit)
        ++ name_to_pattern_go cs.length ((c :: rest).dropWhile Char.isDigit)
      = reEscape (cs.takeWhile notDigit)
        ++ digitRun ((c :: rest).takeWhile Char.isDigit)
        ++ name_to_pattern ((c :: rest).dropWhile Char.isDigit)
    rw [name_to_pattern]
    rw [name_to_pattern_go_fuel cs.length
      (((c :: rest).dropWhile Char.isDigit).length + 1)
      ((c :: rest).dropWhile Char.isDigit) (by omega) (by omega)]

theorem ntp_spec_aux : ∀ (n : Nat) (cs : List Char), cs.length ≤ n →
    name_to_pattern cs = spec_name_to_pattern cs := by
  intro n
  induction n with
  | zero =>
    intro cs h
    have hnil : cs = [] := List.length_eq_zero.mp (Nat.le_zero.mp h)
    subst hnil
    rfl
  | succ n ih =>
    intro cs hlen
    rw [name_to_pattern_unfold]
    cases h : cs.dropWhile notDigit with
    | nil =>
      have hall : cs.takeWhile notDigit = cs := by
        have htd := List.takeWhile_append_dropWhile (p := notDigit) (l := cs)
        rw [h, List.append_nil] at htd
        exact htd
      rw [hall]
      cases cs with
      | nil => rfl
      | cons c tl =>
        have hc : notDigit c = true := by
          by_contra hcc
          rw [List.dropWhile_cons_of_neg hcc] at h
          exact absurd h (by simp)
        have hcd : c.isDigit = false := by simpa [notDigit] using hc
        rw [spec_name_to_pattern, runSplit_cons]
        have hpred : (fun x : Char => x.isDigit == c.isDigit) = notDigit := by
          funext x
          cases hxx : x.isDigit <;> simp [notDigit, hxx, hcd]
        rw [hpred, h, hall]
        show reEscape (c :: tl)
          = ((([c] ++ tl) :: runSplit []).map (fun run =>
              if (run.headD 'a').isDigit then digitRun run else reEscape run)).flatten
        simp [runSplit, runSplit_go, hcd]
    | cons c rest =>
      have hc : notDigit c = false := head_dropWhile_false cs c (by rw [h]; rfl)
      have hcd : c.isDigit = true := by simpa [notDigit] using hc
      have hlenc : (c :: rest).length ≤ cs.length := by
        rw [← h]; exact (List.dropWhile_sublist notDigit).length_le
      simp only [List.length_cons] at hlenc
      have htl : ((c :: rest).dropWhile Char.isDigit).length ≤ rest.length := by
        rw [List.dropWhile_cons_of_pos hcd]
        exact (List.dropWhile_sublist Char.isDigit).length_le
      have hrec : name_to_pattern ((c :: rest).dropWhile Char.isDigit)
          = spec_name_to_pattern ((c :: rest).dropWhile Char.isDigit) :=
        ih _ (by omega)
      cases cs with
      | nil => simp at h
      | cons x xs =>
        by_cases hx : x.isDigit = true
        · have hnd : ¬ (notDigit x = true) := by simp [notDigit, hx]
          rw [List.dropWhile_cons_of_neg hnd] at h
          obtain ⟨h1, h2⟩ := List.cons.injEq .. ▸ h
          subst h1
          subst h2
          have htake : (x :: xs).takeWhile notDigit = [] :=
            List.takeWhile_cons_of_neg hnd
          show reEscape ((x :: xs).takeWhile notDigit)
              ++ digitRun ((x :: xs).takeWhile Char.isDigit)
              ++ name_to_pattern ((x :: xs).dropWhile Char.isDigit)
            = spec_name_to_pattern (x :: xs)
          have hpred : (fun y : Char => y.isDigit == x.isDigit) = Char.isDigit := by
            funext y
            cases hyy : y.isDigit <;> simp [hyy, hx]
          rw [htake, spec_name_to_pattern, runSplit_cons, hpred, hrec,
            List.takeWhile_cons_of_pos hx]
          simp [hx, reEscape, spec_name_to_pattern]
        · have hx' : x.isDigit = false := by simpa using hx
          have hnd : notDigit x = true := by simp [notDigit, hx']
          rw [List.dropWhile_cons_of_pos hnd] at h
          show reEscape ((x :: xs).takeWhile notDigit)
              ++ digitRun ((c :: rest).takeWhile Char.isDigit)
              ++ name_to_pattern ((c :: rest).dropWhile Char.isDigit)
            = spec_name_to_pattern (x :: xs)
          have hpredx : (fun y : Char => y.isDigit == x.isDigit) = notDigit := by
            funext y
            cases hyy : y.isDigit <;> simp [notDigit, hyy, hx']
          have hpredc : (fun y : Char => y.isDigit == c.isDigit) = Char.isDigit := by
            funext y
            cases hyy : y.isDigit <;> simp [hyy, hcd]
          rw [spec_name_to_pattern, runSplit_cons, hpredx,
            List.dropWhile_cons_of_pos hnd, h, runSplit_cons, hpredc,
            List.takeWhile_cons_of_pos hnd, List.takeWhile_cons_of_pos hcd, hrec]
          simp [hx', hcd, spec_name_to_pattern, List.append_assoc]

/-- C6: `name_to_pattern` equals the specification algorithm — split the
basename into alternating non-digit and digit runs, regex-escape the
non-digit runs, replace each digit run of length N by a count-N digit
pattern except date-shaped 8-digit runs, which become the `YYYYMMDD`
pattern — and the two concrete examples of the spec hold. -/
theorem name_to_pattern_correct :
    (∀ cs : List Char, name_to_pattern cs = spec_name_to_pattern cs)
    ∧ name_to_patternS "report_20250601.csv"
        = "report_\\d\x7b4\x7d\\d\x7b2\x7d\\d\x7b2\x7d\\.csv"
    ∧ name_to_patternS "log_123.txt" = "log_\\d\x7b3\x7d\\.txt" :=
  ⟨fun cs => ntp_spec_aux cs.length cs (Nat.le_refl _), by decide, by decide⟩

/-! ### Hashing (`metadata.py`, `_compute_md5`) -/

/-- The read loop of `_compute_md5`: `while chunk := f.read(8192): ...`
splits the file's byte stream into successive chunks of at most `n` bytes
until EOF.  The loop consumes at least one byte per iteration, so a fuel of
`l.length` always suffices; on fuel exhaustion the remaining bytes are
emitted as one chunk, which keeps concatenation faithful for every fuel. -/
def chunksOf_go : Nat → Nat → List Nat → List (List Nat)
  | 0, _, l => if l.isEmpty then [] else [l]
  | fuel + 1, n, l =>
      if l.isEmpty then []
      else l.take n :: chunksOf_go fuel n (l.drop n)

/-- The chunks read by `_compute_md5` from a byte stream. -/
def chunksOf (n : Nat) (l : List Nat) : List (List Nat) :=
  chunksOf_go l.length n l

/-- The `_compute_md5` function from `metadata.py`, parametric in the digest
implementation (`hashlib.md5()` is modelled as an abstract incremental state
`St` with `init`, `update` and `hexdigest`): a read error (`PermissionError`
or `OSError`) yields the empty string; otherwise the digest state is updated
with each 8 KiB chunk in turn and the final state rendered. -/
def _compute_md5 {St : Type} (init : St) (update : St → List Nat → St)
    (hexdigest : St → String) (file : Except String (List Nat)) : String :=
  match file with
  | .error _ => ""
  | .ok content => hexdigest ((chunksOf 8192 content).foldl update init)

/-- The hash step of `_enrich_batch` in `scanner.py`: `metadata.compute_hash()`
assigns the digest (or `""` on a read error) to the record's `md5` field and
the record continues down the pipeline. -/
def compute_hash {St : Type} (init : St) (update : St → List Nat → St)
    (hexdigest : St → String) (m : FileMetadata)
    (file : Except String (List Nat)) : FileMetadata :=
  { m with md5 := _compute_md5 init update hexdigest file }

theorem chunksOf_go_flatten :
    ∀ (fuel n : Nat) (l : List Nat), (chunksOf_go fuel n l).flatten = l := by
  intro fuel
  induction fuel with
  | zero =>
    intro n l
    cases l with
    | nil => rfl
    | cons a l => simp [chunksOf_go]
  | succ f ihf =>
    intro n l
    cases l with
    | nil => rfl
    | cons a l =>
      show ((a :: l).take n :: chunksOf_go f n ((a :: l).drop n)).flatten = a :: l
      rw [List.flatten_cons, ihf n ((a :: l).drop n), List.take_append_drop]

theorem chunksOf_go_sizes :
    ∀ (fuel n : Nat) (l : List Nat), 0 < n → l.length ≤ fuel →
    ∀ c ∈ chunksOf_go fuel n l, c ≠ [] ∧ c.length ≤ n := by
  intro fuel
  induction fuel with
  | zero =>
    intro n l hn hl c hc
    have : l = [] := List.length_eq_zero.mp (Nat.le_zero.mp hl)
    subst this
    simp [chunksOf_go] at hc
  | succ f ihf =>
    intro n l hn hl c hc
    cases l with
    | nil => simp [chunksOf_go] at hc
    | cons a l =>
      have hred : chunksOf_go (f + 1) n (a :: l)
          = (a :: l).take n :: chunksOf_go f n ((a :: l).drop n) := rfl
      rw [hred, List.mem_cons] at hc
      rcases hc with rfl | hc
      · constructor
        · cases n with
          | zero => omega
          | succ k => simp [List.take]
        · exact List.length_take_le ..
      · refine ihf n ((a :: l).drop n) hn ?_ c hc
        simp only [List.length_drop, List.length_cons] at *
        omega

/-- C9: hashing a file whose read errors yields the empty string and the
record still flows (its `md5` field set to `""`, everything else unchanged);
when no error occurs, the chunks are nonempty, at most 8 KiB each, their
concatenation is the complete byte stream, and — for any digest whose update
is compatible with concatenation — the final digest is the digest of the
complete stream. -/
theorem compute_md5_error_and_complete :
    (∀ {St : Type} (init : St) (update : St → List Nat → St)
        (hexdigest : St → String) (e : String),
        _compute_md5 init update hexdigest (.error e) = "")
    ∧ (∀ {St : Type} (init : St) (update : St → List Nat → St)
        (hexdigest : St → String) (m : FileMetadata) (e : String),
        compute_hash init update hexdigest m (.error e) = { m with md5 := "" })
    ∧ (∀ (content : List Nat) (c : List Nat),
        c ∈ chunksOf 8192 content → c ≠ [] ∧ c.length ≤ 8192)
    ∧ (∀ content : List Nat, (chunksOf 8192 content).flatten = content)
    ∧ (∀ {St : Type} (init : St) (update : St → List Nat → St)
        (hexdigest : St → String),
        (∀ s, update s [] = s) →
        (∀ s a b, update s (a ++ b) = update (update s a) b) →
        ∀ content, _compute_md5 init update hexdigest (.ok content)
          = hexdigest (update init content)) := by
  refine ⟨fun _ _ _ _ => rfl, fun _ _ _ _ _ => rfl, ?_, ?_, ?_⟩
  · intro content c hc
    exact chunksOf_go_sizes content.length 8192 content (by omega) (Nat.le_refl _) c hc
  · intro content
    exact chunksOf_go_flatten content.length 8192 content
  · intro St init update hexdigest hnil hconcat content
    show hexdigest ((chunksOf 8192 content).foldl update init) = _
    have hfold : ∀ (cks : List (List Nat)) (s : St),
        cks.foldl update s = update s cks.flatten := by
      intro cks
      induction cks with
      | nil => intro s; simp [hnil]
      | cons c cks ihc => intro s; simp [List.foldl_cons, ihc, hconcat]
    rw [hfold, chunksOf, chunksOf_go_flatten]

/-! ### Deduplication (`filters.py`, `filter_unique`) -/

/-- A Python attribute value (the `FileMetadata` fields are strings and
integers). -/
inductive PyVal where
  | str (s : String)
  | nat (n : Nat)
  deriving DecidableEq, Repr

/-- Python attribute lookup on a `FileMetadata` dataclass instance: each of
the eleven declared fields resolves to its value; any other attribute name —
in particular `sha256`, which `filter_unique` reads in hash mode — raises
`AttributeError`. -/
def FileMetadata.getattr (m : FileMetadata) (a : String) : Except String PyVal :=
  if a = "name" then .ok (.str m.name)
  else if a = "extension" then .ok (.str m.extension)
  else if a = "full_path" then .ok (.str m.full_path)
  else if a = "relative_path" then .ok (.str m.relative_path)
  else if a = "size_bytes" then .ok (.nat m.size_bytes)
  else if a = "ctime" then .ok (.nat m.ctime)
  else if a = "mtime" then .ok (.nat m.mtime)
  else if a = "permissions" then .ok (.str m.permissions)
  else if a = "owner" then .ok (.str m.owner)
  else if a = "mime_type" then .ok (.str m.mime_type)
  else if a = "md5" then .ok (.str m.md5)
  else .error ("AttributeError: " ++ a)

/-- One call of the `check` closure inside `filter_unique` (`filters.py`):
in `hash` mode the key is the record's `sha256` attribute, otherwise the key
is `name_to_pattern(m.name)`; an empty or already-seen key rejects the
record, a fresh key is added to the seen set and the record passes.  The
result pairs the verdict with the updated seen set; an uncaught Python
exception is an `Except.error`. -/
def filter_unique_check (base : String) (seen : List String) (m : FileMetadata) :
    Except String (Bool × List String) :=
  match (if base = "hash" then m.getattr "sha256"
         else Except.ok (.str (name_to_patternS m.name))) with
  | .error e => .error e
  | .ok (.nat _) => .ok (false, seen)
  | .ok (.str key) =>
      if key = "" ∨ key ∈ seen then .ok (false, seen)
      else .ok (true, key :: seen)

/-- C1: in content (`hash`) dedup mode the filter reads `m.sha256`, but
`FileMetadata` declares the digest field as `md5`, so the very first record —
whatever its digest — raises `AttributeError` instead of being deduplicated
by content digest; shown both for every record and seen set, and evaluated at
a concrete record whose `md5` digest is populated. -/
theorem filter_unique_hash_attribute_error :
    (∀ (seen : List String) (m : FileMetadata),
        filter_unique_check "hash" seen m = .error "AttributeError: sha256")
    ∧ filter_unique_check "hash" [] (sampleRecord 0)
        = .error "AttributeError: sha256" := by
  refine ⟨fun seen m => rfl, rfl⟩

/-! ### Duration parsing (`lib/python_core/parsers/date_time.py` and
`formatters.py`) -/

/-- One optional regex group `(?:\d+u)?` matched at the current position:
since digits and unit letters are disjoint, the group deterministically
consumes a maximal nonempty digit run followed by the unit letter `u`, or
consumes nothing. -/
def grabUnit (u : Char) (cs : List Char) : Option Nat × List Char :=
  match cs.dropWhile Char.isDigit with
  | [] => (none, cs)
  | c :: tl =>
      if cs.takeWhile Char.isDigit ≠ [] ∧ c = u then
        (some (digitsToNat (cs.takeWhile Char.isDigit)), tl)
      else (none, cs)

/-- Matching the chain of optional groups for the unit letters `us` in order,
collecting the `(unit, value)` pairs that matched (the `_DURATION_PARTS`
findall of the source, which feeds the `parts` dict) and the remaining
unmatched text. -/
def grabSeq : List Char → List Char → List (Char × Nat) × List Char
  | [], cs => ([], cs)
  | u :: us, cs =>
      match grabUnit u cs with
      | (some v, r) =>
          let g := grabSeq us r
          ((u, v) :: g.1, g.2)
      | (none, _) => grabSeq us cs

/-- The case-sensitive unit alphabet of `date_time.py`, in grammar order. -/
def durUnits : List Char := ['Y', 'M', 'D', 'H', 'm', 's']

/-- The `parse_duration` of `lib/python_core/parsers/date_time.py` on stripped
characters: `_DURATION_VALID.fullmatch` succeeds exactly when the group chain
consumes the whole string (each group is deterministic), the input must be
nonempty, and the result combines the `parts` dict with Y = 365 days and
M = 30 days; the value is in seconds. -/
def parseDurDT (cs : List Char) : Option Nat :=
  if cs = [] then none
  else
    let g := grabSeq durUnits cs
    if g.2 = [] then
      some ((((g.1.lookup 'Y').getD 0) * 365 + ((g.1.lookup 'M').getD 0) * 30
          + (g.1.lookup 'D').getD 0) * 86400
        + ((g.1.lookup 'H').getD 0) * 3600 + ((g.1.lookup 'm').getD 0) * 60
        + (g.1.lookup 's').getD 0)
    else none

/-- String-level `parse_duration` from `date_time.py` (strip, then parse;
a failed parse raises `ValueError`). -/
def parse_duration_dt (s : String) : Except String Nat :=
  match parseDurDT (pyStrip s.data) with
  | some n => .ok n
  | none => .error ("Cannot parse duration: " ++ s)

/-- The `parse_duration` of `formatters.py`: uppercase the stripped input,
then match `^(?:(\d+)D)?(?:(\d+)H)?(?:(\d+)M)?$` and require at least one
group; `M` means minutes here. -/
def parse_duration_fmt (s : String) : Except String Nat :=
  let cs := (pyStrip s.data).map Char.toUpper
  let g := grabSeq ['D', 'H', 'M'] cs
  if g.2 = [] ∧ g.1 ≠ [] then
    .ok (((g.1.lookup 'D').getD 0) * 86400 + ((g.1.lookup 'H').getD 0) * 3600
      + ((g.1.lookup 'M').getD 0) * 60)
  else .error ("Cannot parse duration: " ++ s)

/-- Spec-side tokenizer for the duration grammar: a duration string is a
sequence of blocks, each a nonempty digit run followed by a unit letter of
the alphabet.  Each step consumes at least one character, so fuel
`cs.length` suffices. -/
def tokenizeDur_go : Nat → List Char → Option (List (List Char × Char))
  | 0, l => if l.isEmpty then some [] else none
  | fuel + 1, l =>
      if l.isEmpty then some []
      else
        match l.dropWhile Char.isDigit with
        | [] => none
        | c :: tl =>
            if l.takeWhile Char.isDigit = [] then none
            else if c ∈ durUnits then
              (tokenizeDur_go fuel tl).map (fun bs => (l.takeWhile Char.isDigit, c) :: bs)
            else none

/-- Spec-side tokenizer with sufficient fuel. -/
def tokenizeDur (cs : List Char) : Option (List (List Char × Char)) :=
  tokenizeDur_go cs.length cs

/-- The specification's duration grammar: the string decomposes into blocks
(nonempty digit run, unit), at least one block is present, and the block
units read in order form a subsequence of `Y M D H m s` — the fixed order
with no duplicate units. -/
def spec_duration_ok (cs : List Char) : Bool :=
  match tokenizeDur cs with
  | none => false
  | some bs => !bs.isEmpty && decide (List.Sublist (bs.map Prod.snd) durUnits)

theorem grabUnit_none_snd {u : Char} {cs : List Char}
    (h : (grabUnit u cs).1 = none) : (grabUnit u cs).2 = cs := by
  cases hrest : cs.dropWhile Char.isDigit with
  | nil =>
    have hg : grabUnit u cs = (none, cs) := by
      unfold grabUnit
      rw [hrest]
    rw [hg]
  | cons c tl =>
    by_cases hc : cs.takeWhile Char.isDigit ≠ [] ∧ c = u
    · have hg : grabUnit u cs = (some (digitsToNat (cs.takeWhile Char.isDigit)), tl) := by
        unfold grabUnit
        rw [hrest]
        show (if cs.takeWhile Char.isDigit ≠ [] ∧ c = u then
            (some (digitsToNat (cs.takeWhile Char.isDigit)), tl) else (none, cs)) = _
        rw [if_pos hc]
      rw [hg] at h
      exact absurd h (by simp)
    · have hg : grabUnit u cs = (none, cs) := by
        unfold grabUnit
        rw [hrest]
        show (if cs.takeWhile Char.isDigit ≠ [] ∧ c = u then
            (some (digitsToNat (cs.takeWhile Char.isDigit)), tl) else (none, cs)) = _
        rw [if_neg hc]
      rw [hg]

theorem grabSeq_nil_input : ∀ us : List Char, grabSeq us [] = ([], []) := by
  intro us
  induction us with
  | nil => rfl
  | cons u us ih =>
    show grabSeq us [] = ([], [])
    exact ih

theorem grabSeq_cons_some {u : Char} {cs r : List Char} {v : Nat} (us : List Char)
    (hg : grabUnit u cs = (some v, r)) :
    grabSeq (u :: us) cs = ((u, v) :: (grabSeq us r).1, (grabSeq us r).2) := by
  rw [grabSeq, hg]

theorem grabSeq_cons_none {u : Char} {cs r : List Char} (us : List Char)
    (hg : grabUnit u cs = (none, r)) :
    grabSeq (u :: us) cs = grabSeq us cs := by
  rw [grabSeq, hg]

theorem grabSeq_fst_nil : ∀ (us : List Char) (cs : List Char),
    (grabSeq us cs).1 = [] → (grabSeq us cs).2 = cs := by
  intro us
  induction us with
  | nil => intro cs _; rfl
  | cons u us ih =>
    intro cs h
    cases hg : grabUnit u cs with
    | mk o r =>
      cases o with
      | some v =>
        rw [grabSeq_cons_some us hg] at h
        exact absurd h (by simp)
      | none =>
        rw [grabSeq_cons_none us hg] at h ⊢
        exact ih cs h

theorem tokenizeDur_go_fuel : ∀ (f1 f2 : Nat) (l : List Char),
    l.length ≤ f1 → l.length ≤ f2 → tokenizeDur_go f1 l = tokenizeDur_go f2 l := by
  intro f1
  induction f1 with
  | zero =>
    intro f2 l h1 _
    have : l = [] := List.length_eq_zero.mp (Nat.le_zero.mp h1)
    subst this
    cases f2 <;> rfl
  | succ f ihf =>
    intro f2 l h1 h2
    cases f2 with
    | zero =>
      have : l = [] := List.length_eq_zero.mp (Nat.le_zero.mp h2)
      subst this
      rfl
    | succ g =>
      cases l with
      | nil => rfl
      | cons x xs =>
        show tokenizeDur_go (f + 1) (x :: xs) = tokenizeDur_go (g + 1) (x :: xs)
        simp only [tokenizeDur_go, List.isEmpty_cons]
        cases hrest : (x :: xs).dropWhile Char.isDigit with
        | nil => rfl
        | cons c tl =>
          show (if (x :: xs).takeWhile Char.isDigit = [] then none
              else if c ∈ durUnits then
                Option.map (fun bs => ((x :: xs).takeWhile Char.isDigit, c) :: bs)
                  (tokenizeDur_go f tl)
              else none)
            = (if (x :: xs).takeWhile Char.isDigit = [] then none
              else if c ∈ durUnits then
                Option.map (fun bs => ((x :: xs).takeWhile Char.isDigit, c) :: bs)
                  (tokenizeDur_go g tl)
              else none)
          by_cases hds : (x :: xs).takeWhile Char.isDigit = []
          · simp [hds]
          · have hsplit := List.takeWhile_append_dropWhile (p := Char.isDigit)
              (l := x :: xs)
            rw [hrest] at hsplit
            have hlen := congrArg List.length hsplit
            simp only [List.length_append, List.length_cons] at hlen
            have hne : 0 < ((x :: xs).takeWhile Char.isDigit).length :=
              List.length_pos.mpr hds
            simp only [List.length_cons] at h1 h2
            rw [ihf g tl (by omega) (by omega)]

theorem tokenizeDur_unfold (cs : List Char) :
    tokenizeDur cs =
      if cs.isEmpty then some []
      else
        match cs.dropWhile Char.isDigit with
        | [] => none
        | c :: tl =>
            if cs.takeWhile Char.isDigit = [] then none
            else if c ∈ durUnits then
              (tokenizeDur tl).map (fun bs => (cs.takeWhile Char.isDigit, c) :: bs)
            else none := by
  cases cs with
  | nil => rfl
  | cons x xs =>
    cases hrest : (x :: xs).dropWhile Char.isDigit with
    | nil =>
      show tokenizeDur_go (xs.length + 1) (x :: xs) = _
      rw [tokenizeDur_go, hrest]
    | cons c tl =>
      show tokenizeDur_go (xs.length + 1) (x :: xs) = _
      rw [tokenizeDur_go, hrest]
      show (if (x :: xs).takeWhile Char.isDigit = [] then none
          else if c ∈ durUnits then
            Option.map (fun bs => ((x :: xs).takeWhile Char.isDigit, c) :: bs)
              (tokenizeDur_go xs.length tl)
          else none)
        = (if (x :: xs).takeWhile Char.isDigit = [] then none
          else if c ∈ durUnits then
            Option.map (fun bs => ((x :: xs).takeWhile Char.isDigit, c) :: bs)
              (tokenizeDur tl)
          else none)
      by_cases hds : (x :: xs).takeWhile Char.isDigit = []
      · rw [if_pos hds, if_pos hds]
      · rw [if_neg hds, if_neg hds]
        by_cases hcd : c ∈ durUnits
        · rw [if_pos hcd, if_pos hcd]
          have hsplit := List.takeWhile_append_dropWhile (p := Char.isDigit)
            (l := x :: xs)
          rw [hrest] at hsplit
          have hlen := congrArg List.length hsplit
          simp only [List.length_append, List.length_cons] at hlen
          have hne : 0 < ((x :: xs).takeWhile Char.isDigit).length :=
            List.length_pos.mpr hds
          congr 1
          exact tokenizeDur_go_fuel xs.length tl.length tl (by omega) (Nat.le_refl _)
        · rw [if_neg hcd, if_neg hcd]

theorem tokenizeDur_some_nil {cs : List Char}
    (h : tokenizeDur cs = some []) : cs = [] := by
  cases cs with
  | nil => rfl
  | cons x xs =>
    rw [tokenizeDur_unfold] at h
    rw [if_neg (by simp)] at h
    cases hrest : (x :: xs).dropWhile Char.isDigit with
    | nil =>
      rw [hrest] at h
      exact absurd h (by simp)
    | cons c tl =>
      rw [hrest] at h
      have h : (if (x :: xs).takeWhile Char.isDigit = [] then none
          else if c ∈ durUnits then
            Option.map (fun bs => ((x :: xs).takeWhile Char.isDigit, c) :: bs)
              (tokenizeDur tl)
          else none) = some ([] : List (List Char × Char)) := h
      by_cases hds : (x :: xs).takeWhile Char.isDigit = []
      · rw [if_pos hds] at h
        exact absurd h (by simp)
      · rw [if_neg hds] at h
        by_cases hcd : c ∈ durUnits
        · rw [if_pos hcd] at h
          obtain ⟨bs', _, hcons⟩ := Option.map_eq_some'.mp h
          exact absurd hcons (by simp)
        · rw [if_neg hcd] at h
          exact absurd h (by simp)

theorem sublist_cons_cons_iff_not_mem {a : Char} {l L : List Char} (ha : a ∉ L) :
    List.Sublist (a :: l) (a :: L) ↔ List.Sublist l L := by
  constructor
  · intro h
    cases h with
    | cons _ h' => exact absurd (h'.subset (List.mem_cons_self a l)) ha
    | cons₂ _ h' => exact h'
  · intro h
    exact List.Sublist.cons₂ a h

theorem sublist_cons_of_ne {a b : Char} {l L : List Char} (hne : a ≠ b)
    (h : List.Sublist (a :: l) (b :: L)) : List.Sublist (a :: l) L := by
  cases h with
  | cons _ h' => exact h'
  | cons₂ _ h' => exact absurd rfl hne

theorem grabSeq_rest_iff : ∀ (us cs : List Char), List.Sublist us durUnits →
    ((grabSeq us cs).2 = [] ↔
      ∃ bs, tokenizeDur cs = some bs ∧ List.Sublist (bs.map Prod.snd) us) := by
  intro us
  induction us with
  | nil =>
    intro cs _
    show cs = [] ↔ _
    constructor
    · rintro rfl
      exact ⟨[], rfl, List.Sublist.slnil⟩
    · rintro ⟨bs, htok, hsub⟩
      have hbs : bs = [] := by
        have hmap := List.sublist_nil.mp hsub
        exact List.map_eq_nil_iff.mp hmap
      subst hbs
      exact tokenizeDur_some_nil htok
  | cons u us ihus =>
    intro cs hsub_us
    have hus' : List.Sublist us durUnits :=
      (List.sublist_cons_self u us).trans hsub_us
    have hu_mem : u ∈ durUnits := hsub_us.subset (List.mem_cons_self u us)
    have hnodup : (u :: us).Nodup := (by decide : durUnits.Nodup).sublist hsub_us
    have hu_notin : u ∉ us := (List.nodup_cons.mp hnodup).1
    by_cases hcs : cs = []
    · subst hcs
      rw [grabSeq_nil_input]
      constructor
      · intro _
        exact ⟨[], rfl, List.nil_sublist _⟩
      · intro _
        rfl
    · cases hrest : cs.dropWhile Char.isDigit with
      | nil =>
        have hg : grabUnit u cs = (none, cs) := by
          unfold grabUnit
          rw [hrest]
        rw [grabSeq_cons_none us hg, ihus cs hus']
        have htok : tokenizeDur cs = none := by
          rw [tokenizeDur_unfold, if_neg (by simpa [List.isEmpty_iff] using hcs), hrest]
        simp [htok]
      | cons c tl =>
        by_cases hds : cs.takeWhile Char.isDigit = []
        · have hg : grabUnit u cs = (none, cs) := by
            unfold grabUnit
            rw [hrest]
            show (if cs.takeWhile Char.isDigit ≠ [] ∧ c = u then
                (some (digitsToNat (cs.takeWhile Char.isDigit)), tl)
              else (none, cs)) = (none, cs)
            rw [if_neg (by simp [hds])]
          rw [grabSeq_cons_none us hg, ihus cs hus']
          have htok : tokenizeDur cs = none := by
            rw [tokenizeDur_unfold, if_neg (by simpa [List.isEmpty_iff] using hcs), hrest]
            show (if cs.takeWhile Char.isDigit = [] then none
                else if c ∈ durUnits then
                  Option.map (fun bs => (cs.takeWhile Char.isDigit, c) :: bs)
                    (tokenizeDur tl)
                else none) = none
            rw [if_pos hds]
          simp [htok]
        · have htokc : tokenizeDur cs = if c ∈ durUnits then
              Option.map (fun bs => (cs.takeWhile Char.isDigit, c) :: bs)
                (tokenizeDur tl)
            else none := by
            rw [tokenizeDur_unfold, if_neg (by simpa [List.isEmpty_iff] using hcs), hrest]
            show (if cs.takeWhile Char.isDigit = [] then none
                else if c ∈ durUnits then
                  Option.map (fun bs => (cs.takeWhile Char.isDigit, c) :: bs)
                    (tokenizeDur tl)
                else none) = _
            rw [if_neg hds]
          by_cases hcu : c = u
          · subst hcu
            have hg : grabUnit c cs
                = (some (digitsToNat (cs.takeWhile Char.isDigit)), tl) := by
              unfold grabUnit
              rw [hrest]
              show (if cs.takeWhile Char.isDigit ≠ [] ∧ c = c then
                  (some (digitsToNat (cs.takeWhile Char.isDigit)), tl)
                else (none, cs)) = _
              rw [if_pos ⟨hds, rfl⟩]
            rw [grabSeq_cons_some us hg]
            show (grabSeq us tl).2 = [] ↔ _
            rw [ihus tl hus', htokc, if_pos hu_mem]
            constructor
            · rintro ⟨bs', htl, hsubl⟩
              refine ⟨(cs.takeWhile Char.isDigit, c) :: bs', by rw [htl]; rfl, ?_⟩
              simpa using List.Sublist.cons₂ c hsubl
            · rintro ⟨bs, hbs, hsubl⟩
              obtain ⟨bs', htl, rfl⟩ := Option.map_eq_some'.mp hbs
              refine ⟨bs', htl, ?_⟩
              have hcc : List.Sublist (c :: bs'.map Prod.snd) (c :: us) := by
                simpa using hsubl
              exact (sublist_cons_cons_iff_not_mem hu_notin).mp hcc
          · have hg : grabUnit u cs = (none, cs) := by
              unfold grabUnit
              rw [hrest]
              show (if cs.takeWhile Char.isDigit ≠ [] ∧ c = u then
                  (some (digitsToNat (cs.takeWhile Char.isDigit)), tl)
                else (none, cs)) = (none, cs)
              rw [if_neg (by simp [hcu])]
            rw [grabSeq_cons_none us hg, ihus cs hus', htokc]
            by_cases hcd : c ∈ durUnits
            · rw [if_pos hcd]
              constructor
              · rintro ⟨bs, hbs, hsubl⟩
                exact ⟨bs, hbs, List.Sublist.cons u hsubl⟩
              · rintro ⟨bs, hbs, hsubl⟩
                obtain ⟨bs', htl, rfl⟩ := Option.map_eq_some'.mp hbs
                refine ⟨(cs.takeWhile Char.isDigit, c) :: bs', hbs, ?_⟩
                have hcc : List.Sublist (c :: bs'.map Prod.snd) (u :: us) := by
                  simpa using hsubl
                simpa using sublist_cons_of_ne hcu hcc
            · rw [if_neg hcd]
              simp

/-- C2 (amended): the duration parser of
`lib/python_core/parsers/date_time.py` accepts exactly the case-sensitive
grammar `Y M D H m s` in that fixed order with no duplicate unit and at
least one unit present, `1D12H30m` parses to 36 hours 30 minutes, `1Y6M`
to 545 days, bare `30` and lowercase `1d` are rejected, and `30m` is
30 minutes. -/
theorem parse_duration_dt_grammar :
    (∀ cs : List Char, (parseDurDT cs).isSome = spec_duration_ok cs)
    ∧ parse_duration_dt "1D12H30m" = .ok (36 * 3600 + 30 * 60)
    ∧ parse_duration_dt "1Y6M" = .ok (545 * 86400)
    ∧ (parse_duration_dt "30").toOption = none
    ∧ (parse_duration_dt "1d").toOption = none
    ∧ parse_duration_dt "30m" = .ok (30 * 60) := by
  refine ⟨?_, by rfl, by rfl, by decide, by decide, by rfl⟩
  intro cs
  by_cases hcs : cs = []
  · subst hcs
    rfl
  · apply Bool.coe_iff_coe.mp
    have h1 : (parseDurDT cs).isSome = true ↔ (grabSeq durUnits cs).2 = [] := by
      rcases Decidable.em ((grabSeq durUnits cs).2 = []) with hr | hr
      · simp [parseDurDT, hcs, hr]
      · simp [parseDurDT, hcs, hr]
    have h2 : spec_duration_ok cs = true ↔ ∃ bs, tokenizeDur cs = some bs
        ∧ bs ≠ [] ∧ List.Sublist (bs.map Prod.snd) durUnits := by
      unfold spec_duration_ok
      cases htok : tokenizeDur cs with
      | none => simp
      | some bs => simp [List.isEmpty_iff]
    rw [h1, h2, grabSeq_rest_iff durUnits cs (List.Sublist.refl durUnits)]
    constructor
    · rintro ⟨bs, htok, hsub⟩
      refine ⟨bs, htok, ?_, hsub⟩
      rintro rfl
      exact hcs (tokenizeDur_some_nil htok)
    · rintro ⟨bs, htok, _, hsub⟩
      exact ⟨bs, htok, hsub⟩

/-- C2 counterexample: the other `parse_duration`, in `formatters.py` —
the one the filter cascade imports — does not satisfy the claim: it rejects
`1Y6M` (the claim requires 545 days) and accepts the lowercase `1d` (the
claim requires case-sensitivity, with `D` only). -/
theorem parse_duration_fmt_counterexample :
    (parse_duration_fmt "1Y6M").toOption = none
    ∧ parse_duration_fmt "1d" = .ok 86400
    ∧ parse_duration_fmt "1D12H30M" = .ok (36 * 3600 + 30 * 60) := by
  refine ⟨by decide, by rfl, by rfl⟩

/-! ### Join diff (`compare.py`, `compute_comparison`) -/

/-- The four row statuses assigned by `compute_comparison`; `matched` models
the source's `"match"`. -/
inductive CmpStatus where
  | missing_in_source
  | missing_in_target
  | differ
  | matched
  deriving DecidableEq, Repr

/-- The rows a full outer `pd.merge` on `relative_path` produces for one
source row: one row per matching target row, or a single row with an absent
target side when nothing matches. -/
def mergeRow (tgt : List FileMetadata) (s : FileMetadata) :
    List (Option FileMetadata × Option FileMetadata) :=
  let ms := tgt.filter (fun t => t.relative_path == s.relative_path)
  if ms.isEmpty then [(some s, none)]
  else ms.map (fun t => (some s, some t))

/-- The row multiset of `pd.merge(s, t, on="relative_path", how="outer")` in
`compute_comparison`: every source row joined against its matching target
rows, followed by the target rows with no source match.  (pandas orders the
output differently; the claims are about the multiset of rows.) -/
def mergeOuter (src tgt : List FileMetadata) :
    List (Option FileMetadata × Option FileMetadata) :=
  (src.map (mergeRow tgt)).flatten
    ++ (tgt.filter (fun t =>
        !src.any (fun s => s.relative_path == t.relative_path))).map
      (fun t => (none, some t))

/-- The `_status` classifier of `compute_comparison`: absent source side →
`missing_in_source`; absent target side → `missing_in_target`; both present
and size, mtime, or (when both digests are neither empty nor the CSV `nan`
placeholder) digest differ → `differ`; otherwise `match`. -/
def rowStatus (p : Option FileMetadata × Option FileMetadata) : CmpStatus :=
  match p with
  | (none, _) => .missing_in_source
  | (some _, none) => .missing_in_target
  | (some s, some t) =>
      if s.size_bytes ≠ t.size_bytes
          ∨ (s.md5 ≠ t.md5 ∧ s.md5 ∉ (["", "nan"] : List String)
              ∧ t.md5 ∉ (["", "nan"] : List String))
          ∨ s.mtime ≠ t.mtime
      then .differ else .matched

/-- The property C3 asserts of the join: row count is the cardinality of the
union of the relative-path sets, no row has both sides absent, and the four
statuses characterize the rows exhaustively and disjointly, with `differ`
exactly when size, mtime, or (both digests non-empty) digest differ. -/
def JoinDiffSpec (src tgt : List FileMetadata) : Prop :=
  (mergeOuter src tgt).length
      = ((src.map FileMetadata.relative_path).toFinset
          ∪ (tgt.map FileMetadata.relative_path).toFinset).card
  ∧ (∀ p ∈ mergeOuter src tgt, ¬(p.1 = none ∧ p.2 = none))
  ∧ (∀ p ∈ mergeOuter src tgt,
      (rowStatus p = .missing_in_source ↔ ∃ t, p = (none, some t))
      ∧ (rowStatus p = .missing_in_target ↔ ∃ s, p = (some s, none))
      ∧ (rowStatus p = .differ ↔ ∃ s t, p = (some s, some t)
          ∧ (s.size_bytes ≠ t.size_bytes ∨ s.mtime ≠ t.mtime
              ∨ (s.md5 ≠ "" ∧ t.md5 ≠ "" ∧ s.md5 ≠ t.md5)))
      ∧ (rowStatus p = .matched ↔ ∃ s t, p = (some s, some t)
          ∧ s.size_bytes = t.size_bytes ∧ s.mtime = t.mtime
          ∧ (s.md5 = "" ∨ t.md5 = "" ∨ s.md5 = t.md5)))

theorem mergeOuter_mem_shapes {src tgt : List FileMetadata} :
    ∀ p ∈ mergeOuter src tgt,
      (∃ s t, p = (some s, some t) ∧ s ∈ src ∧ t ∈ tgt)
      ∨ (∃ s, p = (some s, none) ∧ s ∈ src)
      ∨ (∃ t, p = (none, some t) ∧ t ∈ tgt) := by
  intro p hp
  rcases List.mem_append.mp hp with h1 | h2
  · obtain ⟨row, hrow, hpin⟩ := List.mem_flatten.mp h1
    obtain ⟨s, hsm, rfl⟩ := List.mem_map.mp hrow
    unfold mergeRow at hpin
    by_cases hms : (tgt.filter (fun t => t.relative_path == s.relative_path)).isEmpty
    · rw [if_pos hms] at hpin
      simp only [List.mem_singleton] at hpin
      exact Or.inr (Or.inl ⟨s, hpin, hsm⟩)
    · rw [if_neg hms] at hpin
      obtain ⟨t, htm, rfl⟩ := List.mem_map.mp hpin
      exact Or.inl ⟨s, t, rfl, hsm, (List.mem_filter.mp htm).1⟩
  · obtain ⟨t, htm, rfl⟩ := List.mem_map.mp h2
    exact Or.inr (Or.inr ⟨t, rfl, (List.mem_filter.mp htm).1⟩)

theorem filter_key_length_le_one (a : String) :
    ∀ (l : List FileMetadata), (l.map FileMetadata.relative_path).Nodup →
    (l.filter (fun x => x.relative_path == a)).length ≤ 1 := by
  intro l
  induction l with
  | nil => intro _; simp
  | cons x l ihl =>
    intro hnd
    rw [List.map_cons, List.nodup_cons] at hnd
    by_cases hx : x.relative_path = a
    · rw [List.filter_cons_of_pos (by simp [hx])]
      have hrest : l.filter (fun y => y.relative_path == a) = [] := by
        apply List.filter_eq_nil_iff.mpr
        intro y hy hya
        apply hnd.1
        rw [beq_iff_eq] at hya
        rw [hx, ← hya]
        exact List.mem_map_of_mem _ hy
      rw [hrest]
      simp
    · rw [List.filter_cons_of_neg (by simp [hx])]
      exact ihl hnd.2

theorem mergeRow_length {tgt : List FileMetadata}
    (ht : (tgt.map FileMetadata.relative_path).Nodup) (s : FileMetadata) :
    (mergeRow tgt s).length = 1 := by
  unfold mergeRow
  by_cases hms : (tgt.filter (fun t => t.relative_path == s.relative_path)).isEmpty
  · rw [if_pos hms]
    rfl
  · rw [if_neg hms, List.length_map]
    have hle := filter_key_length_le_one s.relative_path tgt ht
    have hpos : 0 < (tgt.filter (fun t => t.relative_path == s.relative_path)).length := by
      apply List.length_pos.mpr
      intro hnil
      exact hms (by rw [hnil]; rfl)
    omega

theorem mergeOuter_flatten_length {tgt : List FileMetadata}
    (ht : (tgt.map FileMetadata.relative_path).Nodup) :
    ∀ src : List FileMetadata, ((src.map (mergeRow tgt)).flatten).length = src.length := by
  intro src
  induction src with
  | nil => rfl
  | cons s src ihs =>
    rw [List.map_cons, List.flatten_cons, List.length_append, ihs,
      mergeRow_length ht s, List.length_cons]
    omega

theorem mergeOuter_length {src tgt : List FileMetadata}
    (hs : (src.map FileMetadata.relative_path).Nodup)
    (ht : (tgt.map FileMetadata.relative_path).Nodup) :
    (mergeOuter src tgt).length
      = ((src.map FileMetadata.relative_path).toFinset
          ∪ (tgt.map FileMetadata.relative_path).toFinset).card := by
  have h1 := mergeOuter_flatten_length ht src
  have hqnd : ((tgt.filter (fun t =>
      !src.any (fun s => s.relative_path == t.relative_path))).map
        FileMetadata.relative_path).Nodup :=
    ht.sublist ((List.filter_sublist tgt).map _)
  have hset : ((tgt.filter (fun t =>
      !src.any (fun s => s.relative_path == t.relative_path))).map
        FileMetadata.relative_path).toFinset
      = (tgt.map FileMetadata.relative_path).toFinset
          \ (src.map FileMetadata.relative_path).toFinset := by
    ext p
    simp only [List.mem_toFinset, Finset.mem_sdiff, List.mem_map, List.mem_filter,
      Bool.not_eq_eq_eq_not, Bool.not_true, List.any_eq_false, beq_iff_eq]
    constructor
    · rintro ⟨t, ⟨htm, hna⟩, rfl⟩
      refine ⟨⟨t, htm, rfl⟩, ?_⟩
      rintro ⟨s, hsm, hse⟩
      exact absurd hse (hna s hsm)
    · rintro ⟨⟨t, htm, rfl⟩, hns⟩
      refine ⟨t, ⟨htm, ?_⟩, rfl⟩
      intro s hsm hse
      exact hns ⟨s, hsm, hse⟩
  have h2 : ((tgt.filter (fun t =>
      !src.any (fun s => s.relative_path == t.relative_path))).map
        FileMetadata.relative_path).toFinset.card
      = (tgt.filter (fun t =>
          !src.any (fun s => s.relative_path == t.relative_path))).length := by
    rw [List.toFinset_card_of_nodup hqnd, List.length_map]
  have hunion : (src.map FileMetadata.relative_path).toFinset
        ∪ (tgt.map FileMetadata.relative_path).toFinset
      = (src.map FileMetadata.relative_path).toFinset
        ∪ ((tgt.map FileMetadata.relative_path).toFinset
            \ (src.map FileMetadata.relative_path).toFinset) :=
    (Finset.union_sdiff_self_eq_union).symm
  rw [mergeOuter, List.length_append, h1, List.length_map, hunion,
    Finset.card_union_of_disjoint Finset.disjoint_sdiff, ← hset, h2,
    List.toFinset_card_of_nodup hs, List.length_map]

/-- C3: for inventories whose relative paths are pairwise distinct (which a
single scan produces) and whose digests are never the literal CSV placeholder
`"nan"`, the outer join on `relative_path` yields exactly one row per path of
the union, no row with both sides absent, and the four statuses characterize
the rows exhaustively and disjointly as the claim states. -/
theorem compute_comparison_join (src tgt : List FileMetadata)
    (hs : (src.map FileMetadata.relative_path).Nodup)
    (ht : (tgt.map FileMetadata.relative_path).Nodup)
    (hnan : ∀ r ∈ src ++ tgt, r.md5 ≠ "nan") :
    JoinDiffSpec src tgt := by
  refine ⟨mergeOuter_length hs ht, ?_, ?_⟩
  · intro p hp
    rcases mergeOuter_mem_shapes p hp with ⟨s, t, rfl, _, _⟩ | ⟨s, rfl, _⟩ | ⟨t, rfl, _⟩
      <;> simp
  · intro p hp
    rcases mergeOuter_mem_shapes p hp with ⟨s, t, rfl, hsm, htm⟩ | ⟨s, rfl, hsm⟩
      | ⟨t, rfl, htm⟩
    · have hnans : s.md5 ≠ "nan" := hnan s (List.mem_append.mpr (Or.inl hsm))
      have hnant : t.md5 ≠ "nan" := hnan t (List.mem_append.mpr (Or.inr htm))
      have hCiff : (s.size_bytes ≠ t.size_bytes
            ∨ (s.md5 ≠ t.md5 ∧ s.md5 ∉ (["", "nan"] : List String)
                ∧ t.md5 ∉ (["", "nan"] : List String))
            ∨ s.mtime ≠ t.mtime)
          ↔ (s.size_bytes ≠ t.size_bytes ∨ s.mtime ≠ t.mtime
            ∨ (s.md5 ≠ "" ∧ t.md5 ≠ "" ∧ s.md5 ≠ t.md5)) := by
        simp only [List.mem_cons, List.not_mem_nil, or_false, not_or,
          List.mem_singleton]
        constructor
        · rintro (h | ⟨h1, ⟨h2, _⟩, h3, _⟩ | h)
          · exact Or.inl h
          · exact Or.inr (Or.inr ⟨h2, h3, h1⟩)
          · exact Or.inr (Or.inl h)
        · rintro (h | h | ⟨h1, h2, h3⟩)
          · exact Or.inl h
          · exact Or.inr (Or.inr h)
          · exact Or.inr (Or.inl ⟨h3, ⟨h1, hnans⟩, h2, hnant⟩)
      by_cases hC : s.size_bytes ≠ t.size_bytes
          ∨ (s.md5 ≠ t.md5 ∧ s.md5 ∉ (["", "nan"] : List String)
              ∧ t.md5 ∉ (["", "nan"] : List String))
          ∨ s.mtime ≠ t.mtime
      · have hrs : rowStatus (some s, some t) = .differ := if_pos hC
        rw [hrs]
        refine ⟨by simp, by simp, ?_, ?_⟩
        · constructor
          · intro _
            exact ⟨s, t, rfl, hCiff.mp hC⟩
          · intro _
            rfl
        · constructor
          · intro h
            exact absurd h (by simp)
          · rintro ⟨s', t', heq, h1, h2, h3⟩
            obtain ⟨hse, hte⟩ := Prod.mk.injEq .. ▸ heq
            cases hse
            cases hte
            exact absurd (hCiff.mp hC) (by
              push_neg
              refine ⟨h1, h2, fun hm1 hm2 => ?_⟩
              rcases h3 with h | h | h
              · exact absurd h hm1
              · exact absurd h hm2
              · exact h)
      · have hrs : rowStatus (some s, some t) = .matched := if_neg hC
        rw [hrs]
        have hnotC := (not_iff_not.mpr hCiff).mp hC
        push_neg at hnotC
        obtain ⟨h1, h2, h3⟩ := hnotC
        refine ⟨by simp, by simp, ?_, ?_⟩
        · constructor
          · intro h
            exact absurd h (by simp)
          · rintro ⟨s', t', heq, hd⟩
            obtain ⟨hse, hte⟩ := Prod.mk.injEq .. ▸ heq
            cases hse
            cases hte
            rcases hd with h | h | h
            · exact absurd h1 h
            · exact absurd h2 h
            · rcases h with ⟨hm1, hm2, hm3⟩
              exact absurd (h3 hm1 hm2) hm3
        · constructor
          · intro _
            refine ⟨s, t, rfl, h1, h2, ?_⟩
            by_cases hm1 : s.md5 = ""
            · exact Or.inl hm1
            · by_cases hm2 : t.md5 = ""
              · exact Or.inr (Or.inl hm2)
              · exact Or.inr (Or.inr (h3 hm1 hm2))
          · intro _
            rfl
    · refine ⟨by simp [rowStatus], ⟨fun _ => ⟨s, rfl⟩, fun _ => by simp [rowStatus]⟩,
        ?_, ?_⟩
      · constructor
        · intro h
          exact absurd h (by simp [rowStatus])
        · rintro ⟨s', t', heq, -⟩
          exact absurd (congrArg Prod.snd heq) (by simp)
      · constructor
        · intro h
          exact absurd h (by simp [rowStatus])
        · rintro ⟨s', t', heq, -⟩
          exact absurd (congrArg Prod.snd heq) (by simp)
    · refine ⟨⟨fun _ => ⟨t, rfl⟩, fun _ => by simp [rowStatus]⟩,
        ?_, ?_, ?_⟩
      · constructor
        · intro h
          exact absurd h (by simp [rowStatus])
        · rintro ⟨s', heq⟩
          exact absurd (congrArg Prod.fst heq) (by simp)
      · constructor
        · intro h
          exact absurd h (by simp [rowStatus])
        · rintro ⟨s', t', heq, -⟩
          exact absurd (congrArg Prod.fst heq) (by simp)
      · constructor
        · intro h
          exact absurd h (by simp [rowStatus])
        · rintro ⟨s', t', heq, -⟩
          exact absurd (congrArg Prod.fst heq) (by simp)

/-- A concrete source inventory for the join-diff witness. -/
def cmpSrc : List FileMetadata :=
  [{ name := "foo.parq", extension := ".parq", full_path := "/s/foo.parq",
     relative_path := "foo.parq", size_bytes := 100, ctime := 0, mtime := 0,
     permissions := "-rw-r--r--", owner := "u", mime_type := "", md5 := "aa" },
   { name := "bar.parq", extension := ".parq", full_path := "/s/bar.parq",
     relative_path := "bar.parq", size_bytes := 50, ctime := 0, mtime := 0,
     permissions := "-rw-r--r--", owner := "u", mime_type := "", md5 := "bb" }]

/-- A concrete target inventory for the join-diff witness. -/
def cmpTgt : List FileMetadata :=
  [{ name := "foo.parq", extension := ".parq", full_path := "/t/foo.parq",
     relative_path := "foo.parq", size_bytes := 100, ctime := 0, mtime := 0,
     permissions := "-rw-r--r--", owner := "u", mime_type := "", md5 := "aa" },
   { name := "baz.parq", extension := ".parq", full_path := "/t/baz.parq",
     relative_path := "baz.parq", size_bytes := 200, ctime := 0, mtime := 7,
     permissions := "-rw-r--r--", owner := "u", mime_type := "", md5 := "cc" }]

theorem compute_comparison_join_witness :
    ((cmpSrc.map FileMetadata.relative_path).Nodup
      ∧ (cmpTgt.map FileMetadata.relative_path).Nodup
      ∧ ∀ r ∈ cmpSrc ++ cmpTgt, r.md5 ≠ "nan")
    ∧ JoinDiffSpec cmpSrc cmpTgt :=
  ⟨⟨by decide, by decide, by decide⟩,
    compute_comparison_join cmpSrc cmpTgt (by decide) (by decide) (by decide)⟩

/-! ### Record construction (`metadata.py`, `extract_metadata_stat`) -/

/-- A pure POSIX path as `pathlib` normalizes it: an anchor flag and the
non-anchor components (nonempty, slash-free strings; `.` components are
dropped at construction). -/
structure PyPath where
  absolute : Bool
  parts : List String
  deriving DecidableEq, Repr

/-- `Path.name`: the final component, or `""` for a bare anchor. -/
def PyPath.name (p : PyPath) : String := p.parts.getLastD ""

/-- `PurePath.suffix` on the final component's characters: the last
dot-suffix when the last dot is neither the first nor the last character,
else empty. -/
def pySuffix (name : List Char) : List Char :=
  let tail := name.reverse.takeWhile (fun c => c != '.')
  if tail.length = name.length then []
  else
    let i := name.length - tail.length - 1
    if 0 < i ∧ tail ≠ [] then name.drop i else []

/-- `Path.suffix` of a path. -/
def PyPath.suffix (p : PyPath) : String := ⟨pySuffix p.name.data⟩

/-- The characters of `str()` on a list of components (joined by `/`). -/
def joinParts : List String → List Char
  | [] => []
  | [p] => p.data
  | p :: rest => p.data ++ '/' :: joinParts rest

/-- `str(path)`: anchored paths start with `/`; the empty relative path
renders as `.`. -/
def pathStr (p : PyPath) : String :=
  if p.absolute then ⟨'/' :: joinParts p.parts⟩
  else if p.parts = [] then "." else ⟨joinParts p.parts⟩

/-- `Path.relative_to`: requires the base to be a component-wise prefix with
the same anchor (else `ValueError`), and returns the remaining components. -/
def relative_to (f b : PyPath) : Option (List String) :=
  if b.absolute = f.absolute ∧ List.isPrefixOf b.parts f.parts then
    some (f.parts.drop b.parts.length)
  else none

/-- `str()` of the relative path returned by `relative_to` (a trivial
remainder renders as `.`). -/
def relStr (rel : List String) : String :=
  if rel = [] then "." else ⟨joinParts rel⟩

/-- An `os.stat_result` restricted to the fields the record uses. -/
structure StatResult where
  st_size : Nat
  st_ctime : Nat
  st_mtime : Nat
  filemode : String
  deriving DecidableEq, Repr

/-- `extract_metadata_stat` from `metadata.py`: `name` and `extension` come
from the path as given, `full_path` from `file_path.resolve()` — the
operating system's symlink-resolving canonicalization, passed here as
`resolveFn` — and `relative_path` from `file_path.relative_to(base_dir)`
(whose `ValueError` makes construction fail).  Owner, MIME and hash start as
placeholders. -/
def extract_metadata_stat (resolveFn : PyPath → PyPath)
    (file_path base_dir : PyPath) (st : StatResult) : Option FileMetadata :=
  (relative_to file_path base_dir).map (fun rel =>
    { name := file_path.name
      extension := file_path.suffix
      full_path := pathStr (resolveFn file_path)
      relative_path := relStr rel
      size_bytes := st.st_size
      ctime := st.st_ctime
      mtime := st.st_mtime
      permissions := st.filemode
      owner := ""
      mime_type := ""
      md5 := "" })

/-- Test that `s` ends with `t`. -/
def strEnds (s t : List Char) : Bool :=
  strStarts s.reverse t.reverse

/-- A filesystem on which `/base/link` is a symbolic link to
`/other/real.txt`: resolution rewrites the whole path. -/
def symlinkResolve : PyPath → PyPath :=
  fun _ => ⟨true, ["other", "real.txt"]⟩

/-- The record the scanner builds for `/base/link` on that filesystem. -/
def symlinkRecord : Option FileMetadata :=
  extract_metadata_stat symlinkResolve ⟨true, ["base", "link"]⟩ ⟨true, ["base"]⟩
    ⟨10, 0, 0, "-rw-r--r--"⟩

/-- The record the scanner builds for a POSIX file literally named
`a\b.txt` (a backslash is an ordinary filename character on POSIX);
`extract_metadata_stat` stores `str(file_path.relative_to(base_dir))`
without any backslash replacement. -/
def backslashRecord : Option FileMetadata :=
  extract_metadata_stat (fun p => p) ⟨true, ["base", "a\\b.txt"]⟩ ⟨true, ["base"]⟩
    ⟨10, 0, 0, "-rw-r--r--"⟩

/-- C5 counterexample, refuting two clauses of the claim at explicit inputs.
First, when the final component is a symbolic link, `resolve()` replaces it:
the record for `/base/link` pointing at `/other/real.txt` has
`full_path = "/other/real.txt"` and `name = "link"`, so `full_path` does not
end with `name`.  Second, for a file literally named `a\b.txt` the stored
`relative_path` is `a\b.txt`, which contains a backslash — the record
construction performs no backslash replacement. -/
theorem extract_metadata_symlink_counterexample :
    (symlinkRecord.map (fun r => (r.full_path, r.name,
        strEnds r.full_path.data r.name.data))
      = some ("/other/real.txt", "link", false))
    ∧ (backslashRecord.map (fun r => (r.relative_path,
        decide ('\\' ∈ r.relative_path.data)))
      = some ("a\\b.txt", true)) := by
  refine ⟨by decide, by decide⟩

theorem strEnds_append (pre suf : List Char) : strEnds (pre ++ suf) suf = true := by
  unfold strEnds
  rw [List.reverse_append]
  exact (strStarts_iff _ _).mpr ⟨pre.reverse, rfl⟩

theorem strEnds_nil (s : List Char) : strEnds s [] = true := by
  unfold strEnds
  cases s.reverse <;> rfl

theorem joinParts_cons_cons (a b : String) (t : List String) :
    joinParts (a :: b :: t) = a.data ++ '/' :: joinParts (b :: t) := rfl

theorem joinParts_snoc : ∀ (parts : List String) (p : String),
    ∃ pre, joinParts (parts ++ [p]) = pre ++ p.data := by
  intro parts
  induction parts with
  | nil => intro p; exact ⟨[], rfl⟩
  | cons q qs ih =>
    intro p
    obtain ⟨pre, hpre⟩ := ih p
    cases qs with
    | nil =>
      refine ⟨q.data ++ ['/'], ?_⟩
      show joinParts (q :: [p]) = _
      rw [joinParts_cons_cons]
      simp [joinParts]
    | cons b t =>
      refine ⟨q.data ++ '/' :: pre, ?_⟩
      show joinParts (q :: ((b :: t) ++ [p])) = _
      rw [List.cons_append, joinParts_cons_cons, ← List.cons_append, hpre]
      simp

theorem joinParts_mem : ∀ (parts : List String) (c : Char),
    c ∈ joinParts parts → c = '/' ∨ ∃ p ∈ parts, c ∈ p.data := by
  intro parts
  induction parts with
  | nil => intro c hc; simp [joinParts] at hc
  | cons q qs ih =>
    intro c hc
    cases qs with
    | nil =>
      exact Or.inr ⟨q, List.mem_cons_self q [], hc⟩
    | cons b t =>
      rw [joinParts_cons_cons] at hc
      rcases List.mem_append.mp hc with h1 | h2
      · exact Or.inr ⟨q, List.mem_cons_self q _, h1⟩
      · rcases List.mem_cons.mp h2 with rfl | h3
        · exact Or.inl rfl
        · rcases ih c h3 with h | ⟨p, hpm, hcp⟩
          · exact Or.inl h
          · exact Or.inr ⟨p, List.mem_cons_of_mem q hpm, hcp⟩

theorem joinParts_head {q : String} {qs : List String} {c : Char} {cs : List Char}
    (hq : q.data = c :: cs) : (joinParts (q :: qs)).head? = some c := by
  cases qs with
  | nil => show q.data.head? = some c; rw [hq]; rfl
  | cons b t =>
    rw [joinParts_cons_cons, hq]
    rfl

/-- C5 (amended): a record accepted by construction has `extension` equal to
the dot-suffix of its `name`; when no path component contains a backslash,
`relative_path` contains no backslash and never begins with `/`; and whenever
resolution preserves the final component — in particular when it is not a
symbolic link — `full_path` ends with `name`. -/
theorem extract_metadata_invariants (resolveFn : PyPath → PyPath)
    (fp bd : PyPath) (st : StatResult) (r : FileMetadata)
    (hr : extract_metadata_stat resolveFn fp bd st = some r)
    (hwf : ∀ part ∈ fp.parts, part ≠ "" ∧ ¬('/' ∈ part.data) ∧ ¬('\\' ∈ part.data))
    (hres : (resolveFn fp).name = fp.name) :
    r.extension = String.mk (pySuffix r.name.data)
    ∧ ¬('\\' ∈ r.relative_path.data)
    ∧ r.relative_path.data.head? ≠ some '/'
    ∧ strEnds r.full_path.data r.name.data = true := by
  obtain ⟨rel, hrel, hfr⟩ := Option.map_eq_some'.mp hr
  subst hfr
  have hrelmem : ∀ p ∈ rel, p ∈ fp.parts := by
    unfold relative_to at hrel
    by_cases hcond : bd.absolute = fp.absolute ∧ List.isPrefixOf bd.parts fp.parts
    · rw [if_pos hcond] at hrel
      obtain hdrop := Option.some.injEq .. ▸ hrel
      intro p hp
      rw [← hdrop] at hp
      exact (List.drop_sublist _ _).subset hp
    · rw [if_neg hcond] at hrel
      exact absurd hrel (by simp)
  refine ⟨rfl, ?_, ?_, ?_⟩
  · show ¬('\\' ∈ (relStr rel).data)
    cases rel with
    | nil => decide
    | cons r0 rest =>
      show ¬('\\' ∈ joinParts (r0 :: rest))
      intro hc
      rcases joinParts_mem (r0 :: rest) '\\' hc with h | ⟨p, hpm, hcp⟩
      · exact absurd h (by decide)
      · exact (hwf p (hrelmem p hpm)).2.2 hcp
  · show (relStr rel).data.head? ≠ some '/'
    cases rel with
    | nil => decide
    | cons r0 rest =>
      have hr0 : r0 ∈ fp.parts := hrelmem r0 (List.mem_cons_self r0 rest)
      obtain ⟨hne, hns, _⟩ := hwf r0 hr0
      cases hd : r0.data with
      | nil =>
        exact absurd (String.ext hd : r0 = "") hne
      | cons c cs =>
        show (joinParts (r0 :: rest)).head? ≠ some '/'
        rw [joinParts_head hd]
        intro hcontra
        obtain hcc := Option.some.injEq .. ▸ hcontra
        apply hns
        rw [hd, ← hcc]
        exact List.mem_cons_self c cs
  · show strEnds (pathStr (resolveFn fp)).data fp.name.data = true
    rw [← hres]
    rcases List.eq_nil_or_concat (resolveFn fp).parts with hnil | ⟨l', a, hcat⟩
    · have hname : (resolveFn fp).name = "" := by
        unfold PyPath.name
        rw [hnil]
        rfl
      rw [hname]
      exact strEnds_nil _
    · rw [List.concat_eq_append] at hcat
      have hname : (resolveFn fp).name = a := by
        unfold PyPath.name
        rw [hcat]
        exact List.getLastD_concat ..
      obtain ⟨pre, hpre⟩ := joinParts_snoc l' a
      rw [hname]
      unfold pathStr
      by_cases habs : (resolveFn fp).absolute
      · rw [if_pos habs]
        show strEnds ('/' :: joinParts (resolveFn fp).parts) a.data = true
        rw [hcat, hpre, ← List.cons_append]
        exact strEnds_append _ _
      · rw [if_neg habs]
        have hne : (resolveFn fp).parts ≠ [] := by
          rw [hcat]
          simp
        rw [if_neg hne]
        show strEnds (joinParts (resolveFn fp).parts) a.data = true
        rw [hcat, hpre]
        exact strEnds_append _ _

/-- The record built for `/base/a.txt` under base `/base` on a filesystem
whose resolution is the identity. -/
def plainRecord : FileMetadata :=
  { name := "a.txt", extension := ".txt", full_path := "/base/a.txt",
    relative_path := "a.txt", size_bytes := 1, ctime := 2, mtime := 3,
    permissions := "-rw-r--r--", owner := "", mime_type := "", md5 := "" }

theorem extract_metadata_invariants_witness :
    (extract_metadata_stat (fun p => p) ⟨true, ["base", "a.txt"]⟩ ⟨true, ["base"]⟩
        ⟨1, 2, 3, "-rw-r--r--"⟩ = some plainRecord
      ∧ (∀ part ∈ (⟨true, ["base", "a.txt"]⟩ : PyPath).parts,
          part ≠ "" ∧ ¬('/' ∈ part.data) ∧ ¬('\\' ∈ part.data))
      ∧ ((fun p => p) (⟨true, ["base", "a.txt"]⟩ : PyPath)).name
          = (⟨true, ["base", "a.txt"]⟩ : PyPath).name)
    ∧ (plainRecord.extension = String.mk (pySuffix plainRecord.name.data)
      ∧ ¬('\\' ∈ plainRecord.relative_path.data)
      ∧ plainRecord.relative_path.data.head? ≠ some '/'
      ∧ strEnds plainRecord.full_path.data plainRecord.name.data = true) :=
  ⟨⟨by decide, by decide, rfl⟩,
    extract_metadata_invariants (fun p => p) ⟨true, ["base", "a.txt"]⟩
      ⟨true, ["base"]⟩ ⟨1, 2, 3, "-rw-r--r--"⟩ plainRecord
      (by decide) (by decide) rfl⟩

/-! ### Time-bucketed metrics (`utils.py`, `write_metrics`) -/

/-- One entry of the `time_buckets` array built by `write_metrics`. -/
structure TimeBucket where
  interval : String
  count : Nat
  total_bytes : Nat
  files : List String
  deriving DecidableEq, Repr

/-- Two-digit zero-padded rendering, as `f"{v:02d}"`. -/
def two2 (n : Nat) : String := (if n < 10 then "0" else "") ++ toString n

/-- The `HH:MM-HH:MM` label of a bucket. -/
def bucketLabel (start_min end_min : Nat) : String :=
  two2 (start_min / 60) ++ ":" ++ two2 (start_min % 60) ++ "-"
    ++ two2 (end_min / 60) ++ ":" ++ two2 (end_min % 60)

/-- The minute-of-day of a record's `mtime` (`hour * 60 + minute`). -/
def todMinutes (m : FileMetadata) : Nat := (m.mtime % 86400) / 60

/-- The bucket loop of `write_metrics`: `(24*60) // interval` buckets, the
i-th covering minutes `[i*interval, (i+1)*interval)`, each counting the
records whose `mtime` minute-of-day falls in its range. -/
def timeBuckets (intervalMinutes : Nat) (df : List FileMetadata) : List TimeBucket :=
  (List.range ((24 * 60) / intervalMinutes)).map (fun i =>
    let start_min := i * intervalMinutes
    let end_min := start_min + intervalMinutes
    let bucket_df := df.filter (fun m =>
      decide (start_min ≤ todMinutes m ∧ todMinutes m < end_min))
    { interval := bucketLabel start_min end_min
      count := bucket_df.length
      total_bytes := (bucket_df.map FileMetadata.size_bytes).sum
      files := bucket_df.map FileMetadata.full_path })

/-- Python `max(iterable, key=...)` on a nonempty list: the first element of
maximal key wins. -/
def maxByCount (b0 : TimeBucket) (bs : List TimeBucket) : TimeBucket :=
  bs.foldl (fun best b => if b.count > best.count then b else best) b0

/-- The `time_buckets` section of `write_metrics`: on an empty inventory the
bucket list stays empty with peak `N/A` and every bucket reported empty; on a
nonempty inventory the buckets are built and `max()` over them picks the
peak (raising `ValueError` if there are no buckets at all); the result is
`(buckets, peak label, peak count, number of empty buckets)`. -/
def write_metrics_time_buckets (intervalMinutes : Nat) (df : List FileMetadata) :
    Except String (List TimeBucket × String × Nat × Nat) :=
  if intervalMinutes = 0 then .error "ZeroDivisionError"
  else if df.isEmpty then .ok ([], "N/A", 0, (24 * 60) / intervalMinutes)
  else
    match timeBuckets intervalMinutes df with
    | [] => .error "ValueError: max() arg is an empty sequence"
    | b0 :: bs =>
        .ok (b0 :: bs, (maxByCount b0 bs).interval, (maxByCount b0 bs).count,
          ((b0 :: bs).filter (fun b => decide (b.count = 0))).length)

set_option maxRecDepth 8000 in
/-- C7 counterexample: with the positive interval 7 the `205 = (24*60)//7`
buckets stop at 23:55, so a record modified at 23:59 is counted by no bucket
— the buckets neither cover 00:00–24:00 nor count every record — and on an
empty inventory with interval 30 the bucket array is empty rather than
containing `(24*60)/30 = 48` buckets. -/
theorem write_metrics_buckets_counterexample :
    (write_metrics_time_buckets 7 [sampleRecord 86340]).toOption.map
        (fun x => (x.1.length, (x.1.map TimeBucket.count).sum))
      = some (205, 0)
    ∧ (205 : Nat) * 7 < 24 * 60
    ∧ (write_metrics_time_buckets 30 []).toOption.map (fun x => x.1.length)
      = some 0 := by
  refine ⟨by decide, by decide, by decide⟩

theorem sum_map_add {α : Type} (l : List α) (f g : α → Nat) :
    (l.map (fun x => f x + g x)).sum = (l.map f).sum + (l.map g).sum := by
  induction l with
  | nil => rfl
  | cons x l ih => simp [ih]; omega

theorem sum_map_ite_length {α : Type} (l : List α) (p : α → Bool) :
    (l.map (fun x => if p x then 1 else 0)).sum = (l.filter p).length := by
  induction l with
  | nil => rfl
  | cons x l ih =>
    by_cases hx : p x
    · rw [List.map_cons, if_pos hx, List.filter_cons_of_pos hx]
      simp [ih]
      omega
    · rw [List.map_cons, if_neg hx, List.filter_cons_of_neg hx]
      simp [ih]

theorem range_filter_eq_single : ∀ (n k : Nat), k < n →
    ((List.range n).filter (fun i => decide (i = k))).length = 1 := by
  intro n
  induction n with
  | zero => intro k hk; omega
  | succ n ihn =>
    intro k hk
    rw [List.range_succ, List.filter_append]
    by_cases hkn : k < n
    · have hlast : ([n].filter (fun i => decide (i = k))) = [] := by
        simp
        omega
      rw [List.length_append, hlast, ihn k hkn]
      rfl
    · have hke : k = n := by omega
      subst hke
      have hpre : ((List.range k).filter (fun i => decide (i = k))) = [] := by
        apply List.filter_eq_nil_iff.mpr
        intro i hi
        have := List.mem_range.mp hi
        simp
        omega
      rw [List.length_append, hpre]
      simp

theorem div_window_iff {I t i : Nat} (hI : 0 < I) :
    (i * I ≤ t ∧ t < i * I + I) ↔ i = t / I := by
  constructor
  · rintro ⟨h1, h2⟩
    have := Nat.div_eq_of_lt_le h1 (by rw [Nat.add_mul, Nat.one_mul]; omega)
    omega
  · rintro rfl
    refine ⟨Nat.div_mul_le_self t I, ?_⟩
    have h1 := Nat.div_add_mod t I
    have h2 := Nat.mod_lt t hI
    rw [Nat.mul_comm]
    omega

theorem bucket_sum : ∀ (df : List FileMetadata) (n I : Nat), 0 < I →
    (∀ m ∈ df, todMinutes m < n * I) →
    ((List.range n).map (fun i => (df.filter (fun m =>
        decide (i * I ≤ todMinutes m ∧ todMinutes m < i * I + I))).length)).sum
      = df.length := by
  intro df
  induction df with
  | nil =>
    intro n I hI _
    have : ∀ i ∈ List.range n, (([] : List FileMetadata).filter (fun m =>
        decide (i * I ≤ todMinutes m ∧ todMinutes m < i * I + I))).length = 0 := by
      intro i _
      rfl
    rw [List.map_congr_left this]
    simp
  | cons m df ihdf =>
    intro n I hI hbound
    have hsplit : ∀ i, ((m :: df).filter (fun x =>
        decide (i * I ≤ todMinutes x ∧ todMinutes x < i * I + I))).length
        = (if (decide (i * I ≤ todMinutes m ∧ todMinutes m < i * I + I)) then 1 else 0)
          + (df.filter (fun x =>
              decide (i * I ≤ todMinutes x ∧ todMinutes x < i * I + I))).length := by
      intro i
      by_cases hm : (i * I ≤ todMinutes m ∧ todMinutes m < i * I + I)
      · rw [List.filter_cons_of_pos (by simpa using hm), if_pos (by simpa using hm)]
        simp [List.length_cons]
        omega
      · rw [List.filter_cons_of_neg (by simpa using hm), if_neg (by simpa using hm)]
        omega
    rw [List.map_congr_left (fun i _ => hsplit i), sum_map_add,
      sum_map_ite_length, ihdf n I hI (fun x hx => hbound x (List.mem_cons_of_mem m hx))]
    have hfil : ((List.range n).filter (fun i =>
        decide (i * I ≤ todMinutes m ∧ todMinutes m < i * I + I))).length = 1 := by
      have hcongr : ∀ i ∈ List.range n,
          (decide (i * I ≤ todMinutes m ∧ todMinutes m < i * I + I))
            = (decide (i = todMinutes m / I)) := by
        intro i _
        rcases Decidable.em (i = todMinutes m / I) with he | he
        · subst he
          simp [(div_window_iff hI).mpr rfl]
        · have hwin : ¬(i * I ≤ todMinutes m ∧ todMinutes m < i * I + I) :=
            fun hw => he ((div_window_iff hI).mp hw)
          simp [he, hwin]
      rw [List.filter_congr hcongr]
      apply range_filter_eq_single
      rw [Nat.div_lt_iff_lt_mul hI]
      exact hbound m (List.mem_cons_self m df)
    rw [hfil, List.length_cons]
    omega

theorem maxByCount_spec : ∀ (bs : List TimeBucket) (b0 : TimeBucket),
    maxByCount b0 bs ∈ b0 :: bs
    ∧ ∀ b' ∈ b0 :: bs, b'.count ≤ (maxByCount b0 bs).count := by
  intro bs
  induction bs with
  | nil =>
    intro b0
    refine ⟨List.mem_cons_self b0 [], ?_⟩
    intro b' hb'
    rcases List.mem_cons.mp hb' with rfl | h
    · exact Nat.le_refl _
    · simp at h
  | cons b bs ihbs =>
    intro b0
    have hstep : maxByCount b0 (b :: bs)
        = maxByCount (if b.count > b0.count then b else b0) bs := rfl
    obtain ⟨hmem, hbound⟩ := ihbs (if b.count > b0.count then b else b0)
    constructor
    · rw [hstep]
      rcases List.mem_cons.mp hmem with he | h
      · rw [he]
        by_cases hcmp : b.count > b0.count
        · rw [if_pos hcmp]
          exact List.mem_cons_of_mem b0 (List.mem_cons_self b bs)
        · rw [if_neg hcmp]
          exact List.mem_cons_self b0 _
      · exact List.mem_cons_of_mem b0 (List.mem_cons_of_mem b h)
    · intro b' hb'
      rw [hstep]
      have hhead : (if b.count > b0.count then b else b0).count
          ≤ (maxByCount (if b.count > b0.count then b else b0) bs).count :=
        hbound _ (List.mem_cons_self _ bs)
      rcases List.mem_cons.mp hb' with he | h
      · have hb0 : b'.count ≤ (if b.count > b0.count then b else b0).count := by
          by_cases hcmp : b.count > b0.count
          · rw [if_pos hcmp, he]
            omega
          · rw [if_neg hcmp, he]
        exact Nat.le_trans hb0 hhead
      · rcases List.mem_cons.mp h with he | h2
        · have hb1 : b'.count ≤ (if b.count > b0.count then b else b0).count := by
            by_cases hcmp : b.count > b0.count
            · rw [if_pos hcmp, he]
            · rw [if_neg hcmp, he]
              omega
          exact Nat.le_trans hb1 hhead
        · exact hbound b' (List.mem_cons_of_mem _ h2)

/-- The property C7 asserts of the time-bucket metrics: exactly
`(24·60)/interval` buckets, the i-th labeled with its `HH:MM-HH:MM` range and
counting exactly the records whose `mtime` minute-of-day lies in
`[i·interval, (i+1)·interval)`; every record is counted (the buckets cover
00:00–24:00); the peak is a bucket of maximal count; and the empty-bucket
figure counts the zero-count buckets. -/
def TimeBucketsSpec (I : Nat) (df : List FileMetadata) : Prop :=
  ∃ buckets peakLabel peakCount emptyCount,
    write_metrics_time_buckets I df
        = .ok (buckets, peakLabel, peakCount, emptyCount)
    ∧ buckets.length = (24 * 60) / I
    ∧ (∀ i (hi : i < buckets.length),
        (buckets.get ⟨i, hi⟩).interval = bucketLabel (i * I) (i * I + I)
        ∧ (buckets.get ⟨i, hi⟩).count = (df.filter (fun m =>
            decide (i * I ≤ todMinutes m ∧ todMinutes m < i * I + I))).length)
    ∧ (buckets.map TimeBucket.count).sum = df.length
    ∧ (∃ b ∈ buckets, peakLabel = b.interval ∧ peakCount = b.count
        ∧ ∀ b' ∈ buckets, b'.count ≤ b.count)
    ∧ emptyCount = (buckets.filter (fun b => decide (b.count = 0))).length

/-- C7 (amended): for every positive interval that divides 24·60 and every
nonempty inventory, the time-bucket metrics satisfy the claim. -/
theorem write_metrics_time_buckets_spec (I : Nat) (df : List FileMetadata)
    (hI : 0 < I) (hdvd : I ∣ 24 * 60) (hdf : df ≠ []) : TimeBucketsSpec I df := by
  have hIne : ¬(I = 0) := by omega
  have hdfe : ¬(df.isEmpty = true) := by simp [List.isEmpty_iff, hdf]
  have hlen : (timeBuckets I df).length = (24 * 60) / I := by
    simp [timeBuckets]
  have hpos : 0 < (timeBuckets I df).length := by
    rw [hlen]
    exact Nat.div_pos (Nat.le_of_dvd (by omega) hdvd) hI
  obtain ⟨b0, bs, hb⟩ := List.exists_cons_of_ne_nil (List.ne_nil_of_length_pos hpos)
  have hw : write_metrics_time_buckets I df
      = .ok (b0 :: bs, (maxByCount b0 bs).interval, (maxByCount b0 bs).count,
          ((b0 :: bs).filter (fun b => decide (b.count = 0))).length) := by
    unfold write_metrics_time_buckets
    rw [if_neg hIne, if_neg hdfe, hb]
  have hbound : ∀ m ∈ df, todMinutes m < ((24 * 60) / I) * I := by
    intro m _
    rw [Nat.div_mul_cancel hdvd]
    unfold todMinutes
    rw [Nat.div_lt_iff_lt_mul (by omega)]
    have := Nat.mod_lt m.mtime (y := 86400) (by omega)
    omega
  refine ⟨timeBuckets I df, (maxByCount b0 bs).interval, (maxByCount b0 bs).count,
    ((timeBuckets I df).filter (fun b => decide (b.count = 0))).length,
    by rw [hb]; exact hw, hlen, ?_, ?_, ?_, rfl⟩
  · intro i hi
    constructor
    · simp [timeBuckets, List.get_eq_getElem]
    · simp [timeBuckets, List.get_eq_getElem]
  · have hmap : (timeBuckets I df).map TimeBucket.count
        = (List.range ((24 * 60) / I)).map (fun i => (df.filter (fun m =>
            decide (i * I ≤ todMinutes m ∧ todMinutes m < i * I + I))).length) := by
      unfold timeBuckets
      rw [List.map_map]
      rfl
    rw [hmap]
    exact bucket_sum df ((24 * 60) / I) I hI hbound
  · obtain ⟨hmem, hbd⟩ := maxByCount_spec bs b0
    refine ⟨maxByCount b0 bs, by rw [hb]; exact hmem, rfl, rfl, ?_⟩
    intro b' hb'
    exact hbd b' (by rw [← hb]; exact hb')

theorem write_metrics_time_buckets_witness :
    (0 < 30 ∧ (30 : Nat) ∣ 24 * 60 ∧ [sampleRecord 86340] ≠ [])
    ∧ TimeBucketsSpec 30 [sampleRecord 86340] :=
  ⟨⟨by decide, by decide, by decide⟩,
    write_metrics_time_buckets_spec 30 [sampleRecord 86340]
      (by decide) (by decide) (by decide)⟩
